import Mathlib

/-!
Verification development for the text-fragments polyfill.

The JavaScript sources are shallowly embedded: a JS string is modelled as a
Lean String (its list of Unicode scalar values), the DOM is modelled as a
finite tree of element and text nodes, and every stateful routine is
translated into explicit state passing.  Loops whose termination relies on
the finiteness of the document are given an explicit fuel parameter, which
mirrors the iteration ceiling the specification demands for traversals.
-/

namespace TFP

/-! ## JavaScript whitespace and basic character classes -/

/-- Characters matched by the JavaScript regular-expression class backslash-s
(ECMA-262 WhiteSpace and LineTerminator). -/
def jsWhitespaceChars : List Char :=
  ['\t', '\n', '\x0b', '\x0c', '\r', ' ', '\u00a0', '\u1680',
   '\u2000', '\u2001', '\u2002', '\u2003', '\u2004', '\u2005', '\u2006',
   '\u2007', '\u2008', '\u2009', '\u200a', '\u2028', '\u2029', '\u202f',
   '\u205f', '\u3000', '\ufeff']

/-- Decides membership in the JS whitespace class. -/
def isJsWhitespace (c : Char) : Bool :=
  jsWhitespaceChars.contains c

/-- Combining Diacritical Marks block U+0300 to U+036F, the characters the
normalizer deletes. -/
def isCombiningMark (c : Char) : Bool :=
  0x300 ≤ c.toNat && c.toNat ≤ 0x36f

/-! ## Modelled host Unicode primitives

The polyfill delegates NFKD decomposition and lowercasing to the JS engine
(String.prototype.normalize and String.prototype.toLowerCase).  They are
host capabilities, not repository code, so they are modelled here by finite
tables that agree with Unicode on every character appearing in this
development; characters outside the tables have no Unicode decomposition
resp. no lowercase mapping and are mapped to themselves. -/

/-- Modelled from the spec: the NFKD decomposition table restricted to the
characters used in this development.  Every listed decomposition is the real
Unicode NFKD decomposition of its key. -/
def nfkdTable : List (Char × List Char) :=
  [('\u00e9', ['e', '\u0301']),
   ('\u00e8', ['e', '\u0300']),
   ('\u00ee', ['i', '\u0302']),
   ('\u00e7', ['c', '\u0327']),
   ('\u00f1', ['n', '\u0303']),
   ('\u00a0', [' '])]

/-- Modelled from the spec: Unicode NFKD on one character (table lookup,
identity on decomposition-free characters). -/
def charNFKD (c : Char) : List Char :=
  match nfkdTable.lookup c with
  | some l => l
  | none => [c]

/-- Modelled from the spec: Unicode NFKD on a character list. -/
def nfkdList (l : List Char) : List Char :=
  l.flatMap charNFKD

/-- The ASCII lowercase table. -/
def lowerTable : List (Char × Char) :=
  [('A', 'a'), ('B', 'b'), ('C', 'c'), ('D', 'd'), ('E', 'e'), ('F', 'f'),
   ('G', 'g'), ('H', 'h'), ('I', 'i'), ('J', 'j'), ('K', 'k'), ('L', 'l'),
   ('M', 'm'), ('N', 'n'), ('O', 'o'), ('P', 'p'), ('Q', 'q'), ('R', 'r'),
   ('S', 's'), ('T', 't'), ('U', 'u'), ('V', 'v'), ('W', 'w'), ('X', 'x'),
   ('Y', 'y'), ('Z', 'z')]

/-- Modelled from the spec: String.prototype.toLowerCase on one character,
restricted to the characters used in this development (identity on
characters without a lowercase mapping). -/
def charLower (c : Char) : Char :=
  (lowerTable.lookup c).getD c

/-- Replaces every maximal run of JS whitespace by a single space; the flag
records whether the previous character was whitespace.  This is the
effect of str.replace with pattern backslash-s-plus and replacement a
single space. -/
def collapseWsAux : Bool → List Char → List Char
  | _, [] => []
  | prevWs, c :: cs =>
    if isJsWhitespace c then
      if prevWs then collapseWsAux true cs
      else ' ' :: collapseWsAux true cs
    else c :: collapseWsAux false cs

/-- Whitespace-run collapsing on a character list. -/
def collapseWs (l : List Char) : List Char :=
  collapseWsAux false l

/-- Deletes the characters in the combining-diacritical-marks block. -/
def stripMarks (l : List Char) : List Char :=
  l.filter (fun c => !isCombiningMark c)

/-- Lowercases a character list. -/
def lowerList (l : List Char) : List Char :=
  l.map charLower

/-- Translation of normalizeString from src/src/text-fragment-utils.js:
NFKD decomposition, then every whitespace run becomes one space, then the
combining marks U+0300 to U+036F are deleted, then the result is
lowercased. -/
def normalizeString (str : String) : String :=
  ⟨lowerList (stripMarks (collapseWs (nfkdList str.data)))⟩

/-- Concrete input refuting idempotence of normalizeString: a combining
grave accent surrounded by two spaces.  NFKD leaves it unchanged, the
whitespace collapse sees two separate one-space runs, deleting the mark
then merges them into a two-space run which a second pass collapses. -/
def c4input : String :=
  ⟨[' ', '̀', ' ']⟩

/-! ## Generic JS string operations -/

/-- JS String.prototype.substring: both indices are clamped to the string
length and swapped when out of order. -/
def jsSubstring (s : String) (st : Nat) (eo : Option Nat) : String :=
  let len := s.data.length
  let a := min st len
  let b := min (eo.getD len) len
  let lo := min a b
  let hi := max a b
  ⟨(s.data.drop lo).take (hi - lo)⟩

/-- Index of the first list element satisfying a predicate. -/
def findIdxFrom : List Char → (Char → Bool) → Option Nat
  | [], _ => none
  | c :: cs, p => if p c then some 0 else (findIdxFrom cs p).map (· + 1)

/-- JS String.prototype.search for a character-class regular expression:
index of the first character satisfying the class, none when the JS code
would get -1. -/
def jsSearch (s : String) (p : Char → Bool) : Option Nat :=
  findIdxFrom s.data p

/-- JS String.prototype.indexOf with a fromIndex, which JS clamps into the
string: the least occurrence index at least the clamped fromIndex, none
when the JS code would get -1. -/
def jsIndexOfFrom (data pat : List Char) (fromIndex : Nat) : Option Nat :=
  ((List.range (data.length + 1)).filter
    (fun i => min fromIndex data.length ≤ i && decide (pat <+: data.drop i))).head?

/-- JS String.prototype.includes. -/
def jsIncludes (data pat : List Char) : Bool :=
  (jsIndexOfFrom data pat 0).isSome

/-- Translation of reverseString from the generation module: spreads the
string into characters and reverses them. -/
def reverseString (s : String) : String :=
  ⟨s.data.reverse⟩

/-! ## Boundary characters

The generation module reads BOUNDARY_CHARS and NON_BOUNDARY_CHARS from a
version of the utils module that is not part of this snapshot; only their
use sites are.  They are therefore modelled from the spec. -/

/-- ASCII punctuation code points (the printable non-alphanumerics). -/
def boundaryPunctCodes : List Nat :=
  [33, 34, 35, 36, 37, 38, 39, 40, 41, 42, 43, 44, 45, 46, 47,
   58, 59, 60, 61, 62, 63, 64, 91, 92, 93, 94, 95, 96, 123, 124, 125, 126]

/-- Modelled from the spec: the BOUNDARY_CHARS character class of the
missing utils module (spec section 4.2: whitespace, punctuation and
script-specific separators).  This model covers JS whitespace and ASCII
punctuation, which suffices for every concrete document considered here. -/
def isBoundaryChar (c : Char) : Bool :=
  isJsWhitespace c || boundaryPunctCodes.contains c.toNat

/-! ## The resolver match filter (claim C5) -/

/-- Translation of isWordBounded from src/src/text-fragment-utils.js lines
666 to 672: the body returns true unconditionally; the word-bounding rule
described in its documentation is dead commentary after the return. -/
def isWordBounded (_text : String) (_startPos _length : Nat) : Bool :=
  true

/-- Modelled from the spec: the word-bounding rule that isWordBounded is
documented to implement (its own doc comment and spec section 4.7): the
character before the match, if any, must be a boundary character, and the
character after the match, if any, must be a boundary character. -/
def isWordBoundedSpec (text : String) (startPos length : Nat) : Bool :=
  (startPos == 0 || isBoundaryChar (text.data.getD (startPos - 1) ' ')) &&
    (startPos + length == text.data.length ||
      isBoundaryChar (text.data.getD (startPos + length) ' '))

/-- Translation of the match-acceptance loop of findRangeFromNodeList
(src/src/text-fragment-utils.js lines 542 to 556) at the string level: take
the next occurrence of the normalized query at or after searchStart and
accept it as soon as isWordBounded approves, otherwise continue after it.
The fuel bounds the loop, which in JS terminates because the search start
strictly increases. -/
def findRangeMatchIndex (fuel : Nat) (data q : String) (searchStart : Nat) :
    Option Nat :=
  match fuel with
  | 0 => none
  | fuel + 1 =>
    match jsIndexOfFrom data.data q.data searchStart with
    | none => none
    | some matchIndex =>
      if isWordBounded data matchIndex q.data.length then some matchIndex
      else findRangeMatchIndex fuel data q (matchIndex + 1)

/-! ## The fragment factory (claims C3 and C7)

Translation of the FragmentFactory class of the generation module (embedded
in src/test/fragment-generation-utils-test.js lines 784 to 1135).  The
mutable instance becomes a record; each method maps the record to a new
record. -/

/-- Upper bound on selection length for the exact-match fast path. -/
def MAX_EXACT_MATCH_LENGTH : Nat := 300

/-- Number of embiggen iterations before context is grown as well. -/
def ITERATIONS_BEFORE_ADDING_CONTEXT : Nat := 3

/-- The three factory modes. -/
inductive FactoryMode where
  | allParts
  | sharedStartAndEnd
  | contextOnly
deriving DecidableEq, Repr

/-- A text fragment locator; absent JS fields are none. -/
structure TextFragment where
  textStart : Option String := none
  textEnd : Option String := none
  prefixText : Option String := none
  suffixText : Option String := none
deriving DecidableEq, Repr

/-- The FragmentFactory instance state.  The JS constructor leaves the mode
and several search spaces undefined until one of the three setters runs;
the record carries placeholder defaults with the same observable behavior
because every code path goes through exactly one setter. -/
structure FragmentFactory where
  mode : FactoryMode := .contextOnly
  startSearchSpace : String := ""
  endSearchSpace : String := ""
  backwardsEndSearchSpace : String := ""
  sharedSearchSpace : String := ""
  backwardsSharedSearchSpace : String := ""
  exactTextMatch : String := ""
  prefixSearchSpace : String := ""
  backwardsPrefixSearchSpace : String := ""
  suffixSearchSpace : String := ""
  startOffset : Option Nat := none
  endOffset : Option Nat := none
  prefixOffset : Option Nat := none
  suffixOffset : Option Nat := none
  numIterations : Nat := 0
deriving DecidableEq, Repr

namespace FragmentFactory

/-- The factory constructor state. -/
def new : FragmentFactory := {}

/-- Translation of setStartAndEndSearchSpace. -/
def setStartAndEndSearchSpace (f : FragmentFactory) (sSS eSS : String) :
    FragmentFactory :=
  { f with
    startSearchSpace := sSS
    endSearchSpace := eSS
    backwardsEndSearchSpace := reverseString eSS
    startOffset := some 0
    endOffset := some eSS.data.length
    mode := .allParts }

/-- Translation of setSharedSearchSpace. -/
def setSharedSearchSpace (f : FragmentFactory) (shared : String) :
    FragmentFactory :=
  { f with
    sharedSearchSpace := shared
    backwardsSharedSearchSpace := reverseString shared
    startOffset := some 0
    endOffset := some shared.data.length
    mode := .sharedStartAndEnd }

/-- Translation of setExactTextMatch. -/
def setExactTextMatch (f : FragmentFactory) (exact : String) :
    FragmentFactory :=
  { f with exactTextMatch := exact, mode := .contextOnly }

/-- Translation of setPrefixAndSuffixSearchSpace. -/
def setPrefixAndSuffixSearchSpace (f : FragmentFactory) (pSS sSS : String) :
    FragmentFactory :=
  { f with
    prefixSearchSpace := pSS
    backwardsPrefixSearchSpace := reverseString pSS
    prefixOffset := some pSS.data.length
    suffixSearchSpace := sSS
    suffixOffset := some 0 }

/-- Translation of getStartSearchSpace. -/
def getStartSearchSpace (f : FragmentFactory) : String :=
  if f.mode = .sharedStartAndEnd then f.sharedSearchSpace else f.startSearchSpace

/-- Translation of getEndSearchSpace. -/
def getEndSearchSpace (f : FragmentFactory) : String :=
  if f.mode = .sharedStartAndEnd then f.sharedSearchSpace else f.endSearchSpace

/-- Translation of getBackwardsEndSearchSpace. -/
def getBackwardsEndSearchSpace (f : FragmentFactory) : String :=
  if f.mode = .sharedStartAndEnd then f.backwardsSharedSearchSpace
  else f.backwardsEndSearchSpace

/-- Translation of getPrefixSearchSpace. -/
def getPrefixSearchSpace (f : FragmentFactory) : String :=
  f.prefixSearchSpace

/-- Translation of getBackwardsPrefixSearchSpace. -/
def getBackwardsPrefixSearchSpace (f : FragmentFactory) : String :=
  f.backwardsPrefixSearchSpace

/-- Translation of getSuffixSearchSpace. -/
def getSuffixSearchSpace (f : FragmentFactory) : String :=
  f.suffixSearchSpace

/-- Translation of backwardsEndOffset; a null endOffset coerces to 0 in the
JS subtraction. -/
def backwardsEndOffset (f : FragmentFactory) : Nat :=
  f.getEndSearchSpace.data.length - f.endOffset.getD 0

/-- Translation of setBackwardsEndOffset. -/
def setBackwardsEndOffset (f : FragmentFactory) (b : Nat) : FragmentFactory :=
  { f with endOffset := some (f.getEndSearchSpace.data.length - b) }

/-- Translation of backwardsPrefixOffset, which returns null when the
prefix offset is null. -/
def backwardsPrefixOffset (f : FragmentFactory) : Option Nat :=
  f.prefixOffset.map (fun po => f.getPrefixSearchSpace.data.length - po)

/-- Translation of setBackwardsPrefixOffset, a no-op when the prefix offset
is null. -/
def setBackwardsPrefixOffset (f : FragmentFactory) (b : Nat) :
    FragmentFactory :=
  match f.prefixOffset with
  | none => f
  | some _ =>
    { f with prefixOffset := some (f.getPrefixSearchSpace.data.length - b) }

/-- The condition under which embiggen still expands the range candidates:
the negation of the mode-specific stop tests at the top of embiggen. -/
def rangeGrowable (f : FragmentFactory) : Bool :=
  match f.mode with
  | .sharedStartAndEnd => !(f.startOffset.getD 0 ≥ f.endOffset.getD 0)
  | .allParts =>
    !(f.startOffset.getD 0 == f.getStartSearchSpace.data.length &&
      f.backwardsEndOffset == f.getEndSearchSpace.data.length)
  | .contextOnly => false

/-- Unused prefix or suffix search space remains: the test inside the
context gate of embiggen. -/
def contextGrowable (f : FragmentFactory) : Bool :=
  (match f.backwardsPrefixOffset with
   | some bpo => !(bpo == f.getPrefixSearchSpace.data.length)
   | none => false) ||
  (match f.suffixOffset with
   | some so => !(so == f.getSuffixSearchSpace.data.length)
   | none => false)

/-- The startOffset update inside embiggen: advance startOffset to the
next boundary character of the start search space, then clamp it against
endOffset in shared mode. -/
def expandRangeStepStart (f : FragmentFactory) : FragmentFactory :=
  let so := f.startOffset.getD 0
  if so < f.getStartSearchSpace.data.length then
    let f1 :=
      match jsSearch (jsSubstring f.getStartSearchSpace (so + 1) none)
          isBoundaryChar with
      | none => { f with startOffset := some f.getStartSearchSpace.data.length }
      | some idx => { f with startOffset := some (so + 1 + idx) }
    if f1.mode = .sharedStartAndEnd then
      { f1 with
        startOffset := some (min (f1.startOffset.getD 0) (f1.endOffset.getD 0)) }
    else f1
  else f

/-- The endOffset update inside embiggen: advance the backwards end offset
to the next boundary character of the backwards end search space, then
clamp endOffset against startOffset in shared mode. -/
def expandRangeStepEnd (f : FragmentFactory) : FragmentFactory :=
  let beo := f.backwardsEndOffset
  if beo < f.getEndSearchSpace.data.length then
    let f1 :=
      match jsSearch (jsSubstring f.getBackwardsEndSearchSpace (beo + 1) none)
          isBoundaryChar with
      | none => f.setBackwardsEndOffset f.getEndSearchSpace.data.length
      | some idx => f.setBackwardsEndOffset (beo + 1 + idx)
    if f1.mode = .sharedStartAndEnd then
      { f1 with
        endOffset := some (max (f1.startOffset.getD 0) (f1.endOffset.getD 0)) }
    else f1
  else f

/-- The range-growth half of embiggen: the start side runs first, exactly
as in the JS method body. -/
def expandRangeStep (f : FragmentFactory) : FragmentFactory :=
  expandRangeStepEnd (expandRangeStepStart f)

/-- The prefix update inside embiggen.  A null prefix offset coerces to 0
in the JS comparison; the setter then no-ops. -/
def expandContextStepPre (f : FragmentFactory) : FragmentFactory :=
  let bpo := (f.backwardsPrefixOffset).getD 0
  if bpo < f.getPrefixSearchSpace.data.length then
    match jsSearch (jsSubstring f.getBackwardsPrefixSearchSpace (bpo + 1) none)
        isBoundaryChar with
    | none =>
      f.setBackwardsPrefixOffset f.getBackwardsPrefixSearchSpace.data.length
    | some idx => f.setBackwardsPrefixOffset (bpo + 1 + idx)
  else f

/-- The suffix update inside embiggen. -/
def expandContextStepSuf (f : FragmentFactory) : FragmentFactory :=
  let so := f.suffixOffset.getD 0
  if so < f.getSuffixSearchSpace.data.length then
    match jsSearch (jsSubstring f.getSuffixSearchSpace (so + 1) none)
        isBoundaryChar with
    | none => { f with suffixOffset := some f.getSuffixSearchSpace.data.length }
    | some idx => { f with suffixOffset := some (so + 1 + idx) }
  else f

/-- The context-growth half of embiggen: prefix side first, as in JS. -/
def expandContextStep (f : FragmentFactory) : FragmentFactory :=
  expandContextStepSuf (expandContextStepPre f)

/-- Translation of embiggen: decide whether range or context can still
grow, perform the growth, bump the iteration counter and report whether
anything could grow. -/
def embiggen (f : FragmentFactory) : Bool × FragmentFactory :=
  let canExpandRange := f.rangeGrowable
  let canExpandContext :=
    if !canExpandRange || f.numIterations ≥ ITERATIONS_BEFORE_ADDING_CONTEXT then
      f.contextGrowable
    else false
  let f := if canExpandRange then f.expandRangeStep else f
  let f := if canExpandContext then f.expandContextStep else f
  (canExpandRange || canExpandContext,
    { f with numIterations := f.numIterations + 1 })

/-- Well-formedness of a factory state: exactly what the three setters
establish and embiggen preserves (offsets present as the mode demands and
within their search spaces, backwards spaces the reverses of the forward
ones, prefix and suffix configured together or not at all). -/
def WF (f : FragmentFactory) : Bool :=
  (f.backwardsEndSearchSpace == reverseString f.endSearchSpace) &&
  (f.backwardsSharedSearchSpace == reverseString f.sharedSearchSpace) &&
  (f.backwardsPrefixSearchSpace == reverseString f.prefixSearchSpace) &&
  (match f.mode with
   | .allParts =>
     f.startOffset.isSome && f.endOffset.isSome &&
       f.startOffset.getD 0 ≤ f.startSearchSpace.data.length &&
       f.endOffset.getD 0 ≤ f.endSearchSpace.data.length
   | .sharedStartAndEnd =>
     f.startOffset.isSome && f.endOffset.isSome &&
       f.startOffset.getD 0 ≤ f.endOffset.getD 0 &&
       f.endOffset.getD 0 ≤ f.sharedSearchSpace.data.length
   | .contextOnly => f.startOffset.isNone && f.endOffset.isNone) &&
  ((f.prefixOffset.isNone && f.suffixOffset.isNone &&
      f.prefixSearchSpace == "" && f.suffixSearchSpace == "") ||
   (f.prefixOffset.isSome && f.suffixOffset.isSome &&
      f.prefixOffset.getD 0 ≤ f.prefixSearchSpace.data.length &&
      f.suffixOffset.getD 0 ≤ f.suffixSearchSpace.data.length))

/-- Termination measure for repeated embiggen calls: unconsumed range
search space plus unconsumed context search space. -/
def measureFn (f : FragmentFactory) : Nat :=
  (match f.mode with
   | .allParts =>
     (f.startSearchSpace.data.length - f.startOffset.getD 0) + f.endOffset.getD 0
   | .sharedStartAndEnd => f.endOffset.getD 0 - f.startOffset.getD 0
   | .contextOnly => 0) +
  (f.prefixOffset.getD 0 +
    (f.suffixSearchSpace.data.length - f.suffixOffset.getD 0))

/-- The factory state after n embiggen calls. -/
def embiggenState (f : FragmentFactory) : Nat → FragmentFactory
  | 0 => f
  | n + 1 => (embiggenState f n).embiggen.2

/-- The boolean returned by embiggen call number n + 1. -/
def embiggenResult (f : FragmentFactory) (n : Nat) : Bool :=
  (embiggenState f n).embiggen.1

end FragmentFactory


/-- A concrete well-formed factory used as witness input: shared search
space with prefix and suffix context spaces. -/
def c3factory : FragmentFactory :=
  (FragmentFactory.new.setSharedSearchSpace "text1 text2 text3"
    ).setPrefixAndSuffixSearchSpace "aa bb" "cc dd"

/-! ## The DOM model

A document is a finite tree of element and text nodes.  Nodes are
addressed by paths (lists of child indices) from the document root, which
is the HTML element; the BODY element is its single child.  Boundary
points, ranges and tree walkers follow the DOM specification, restricted
to what the embedded code uses.  All nodes are modelled as rendered
(visible). -/

/-- A DOM node: a text node carrying its character data, or an element
carrying its tag name and children. -/
inductive DNode where
  | text : String → DNode
  | elem : String → List DNode → DNode

/-- A node address: the list of child indices from the document root. -/
abbrev Path := List Nat

/-- Block elements, translated from BLOCK_ELEMENTS in
src/src/text-fragment-utils.js. -/
def BLOCK_ELEMENTS : List String :=
  ["ADDRESS", "ARTICLE", "ASIDE", "BLOCKQUOTE", "DETAILS", "DIALOG", "DD",
   "DIV", "DL", "DT", "FIELDSET", "FIGCAPTION", "FIGURE", "FOOTER", "FORM",
   "H1", "H2", "H3", "H4", "H5", "H6", "HEADER", "HGROUP", "HR", "LI",
   "MAIN", "NAV", "OL", "P", "PRE", "SECTION", "TABLE", "UL"]

/-- Builds a document from the children of its BODY element. -/
def mkDoc (bodyKids : List DNode) : DNode :=
  .elem "HTML" [.elem "BODY" bodyKids]

/-- The path of document.body in a document built by mkDoc. -/
def bodyPath : Path := [0]

/-- The node addressed by a path, if any. -/
def nodeAt : DNode → Path → Option DNode
  | n, [] => some n
  | .text _, _ :: _ => none
  | .elem _ kids, i :: p =>
    match kids.get? i with
    | some k => nodeAt k p
    | none => none

/-- Whether a path addresses a text node. -/
def isTextNode (doc : DNode) (p : Path) : Bool :=
  match nodeAt doc p with
  | some (.text _) => true
  | _ => false

/-- The character data of a text node. -/
def textDataOf (doc : DNode) (p : Path) : Option String :=
  match nodeAt doc p with
  | some (.text s) => some s
  | _ => none

/-- The number of children of an element, 0 for text nodes and missing
paths (childNodes.length). -/
def childCountOf (doc : DNode) (p : Path) : Nat :=
  match nodeAt doc p with
  | some (.elem _ kids) => kids.length
  | _ => 0

/-- The DOM length of a node: character count for text, child count for
elements. -/
def nodeLengthOf (doc : DNode) (p : Path) : Nat :=
  match nodeAt doc p with
  | some (.elem _ kids) => kids.length
  | some (.text s) => s.data.length
  | none => 0

/-- Node.contains: a node contains itself and all its descendants. -/
def pathContains (p q : Path) : Bool :=
  List.isPrefixOf p q

/-- Translation of isBlock from the generation module: an element whose
tag is in the block list, or the root or body element. -/
def isBlock (doc : DNode) (p : Path) : Bool :=
  match nodeAt doc p with
  | some (.elem tag _) =>
    BLOCK_ELEMENTS.contains tag || tag == "HTML" || tag == "BODY"
  | _ => false

mutual
/-- The concatenated text of a node's subtree (Node.textContent). -/
def textContent : DNode → String
  | .text s => s
  | .elem _ kids => textContentList kids
def textContentList : List DNode → String
  | [] => ""
  | k :: ks => textContent k ++ textContentList ks
end

mutual
/-- Modelled from the spec: Element.innerText, the rendered text of an
element.  The model concatenates descendant text and wraps the contents of
block-level descendants in newlines, which matches rendering for the
documents considered here. -/
def innerTextItem : DNode → String
  | .text s => s
  | .elem tag kids =>
    if BLOCK_ELEMENTS.contains tag then
      "\n" ++ innerTextItemList kids ++ "\n"
    else innerTextItemList kids
def innerTextItemList : List DNode → String
  | [] => ""
  | k :: ks => innerTextItem k ++ innerTextItemList ks
end

/-- The innerText of the element at a path. -/
def innerTextOf (doc : DNode) (p : Path) : String :=
  match nodeAt doc p with
  | some (.text s) => s
  | some (.elem _ kids) => innerTextItemList kids
  | none => ""

/-- DOM boundary-point comparison on (container path, offset) pairs. -/
def comparePoints : Path → Nat → Path → Nat → Ordering
  | [], o1, [], o2 => compare o1 o2
  | [], o1, i :: _, _ => if i < o1 then .gt else .lt
  | i :: _, _, [], o2 => if i < o2 then .lt else .gt
  | a :: p1, o1, b :: p2, o2 =>
    if a = b then comparePoints p1 o1 p2 o2 else compare a b

/-- A DOM Range: a pair of boundary points into one document. -/
structure DRange where
  sPath : Path
  sOff : Nat
  ePath : Path
  eOff : Nat
deriving DecidableEq, Repr

namespace DRange

/-- Range.collapsed. -/
def collapsed (r : DRange) : Bool :=
  r.sPath == r.ePath && r.sOff == r.eOff

/-- Range.setStart: sets the start; if the new start is after the end, the
end collapses onto it. -/
def setStart (r : DRange) (p : Path) (o : Nat) : DRange :=
  if comparePoints p o r.ePath r.eOff = .gt then ⟨p, o, p, o⟩
  else ⟨p, o, r.ePath, r.eOff⟩

/-- Range.setEnd: sets the end; if the new end is before the start, the
start collapses onto it. -/
def setEnd (r : DRange) (p : Path) (o : Nat) : DRange :=
  if comparePoints p o r.sPath r.sOff = .lt then ⟨p, o, p, o⟩
  else ⟨r.sPath, r.sOff, p, o⟩

/-- Range.setStartAfter(node). -/
def setStartAfterNode (r : DRange) (p : Path) : DRange :=
  match p.getLast? with
  | some i => r.setStart p.dropLast (i + 1)
  | none => r

/-- Range.setStartBefore(node). -/
def setStartBeforeNode (r : DRange) (p : Path) : DRange :=
  match p.getLast? with
  | some i => r.setStart p.dropLast i
  | none => r

/-- Range.setEndAfter(node). -/
def setEndAfterNode (r : DRange) (p : Path) : DRange :=
  match p.getLast? with
  | some i => r.setEnd p.dropLast (i + 1)
  | none => r

/-- Range.setEndBefore(node). -/
def setEndBeforeNode (r : DRange) (p : Path) : DRange :=
  match p.getLast? with
  | some i => r.setEnd p.dropLast i
  | none => r

/-- Range.collapse() with its default argument, collapsing to the end. -/
def collapseToEnd (r : DRange) : DRange :=
  ⟨r.ePath, r.eOff, r.ePath, r.eOff⟩

/-- Range.selectNodeContents(node). -/
def selectNodeContents (doc : DNode) (p : Path) : DRange :=
  ⟨p, 0, p, nodeLengthOf doc p⟩

/-- Range.commonAncestorContainer: the longest common prefix of the two
container paths. -/
def commonAncestor (r : DRange) : Path :=
  commonPrefixAux r.sPath r.ePath
where
  commonPrefixAux : Path → Path → Path
    | a :: as_, b :: bs => if a = b then a :: commonPrefixAux as_ bs else []
    | _, _ => []

/-- Range.intersectsNode(node). -/
def intersectsNode (r : DRange) (p : Path) : Bool :=
  match p.getLast? with
  | none => true
  | some i =>
    let parent := p.dropLast
    comparePoints parent i r.ePath r.eOff = .lt &&
      comparePoints parent (i + 1) r.sPath r.sOff = .gt

end DRange

mutual
/-- All paths of a subtree, in document (preorder) order. -/
def subtreePaths : DNode → Path → List Path
  | .text _, base => [base]
  | .elem _ kids, base => base :: subtreePathsList kids base 0
def subtreePathsList : List DNode → Path → Nat → List Path
  | [], _, _ => []
  | k :: ks, base, i =>
    subtreePaths k (base ++ [i]) ++ subtreePathsList ks base (i + 1)
end

/-- All paths of the subtree rooted at a given path, in document order. -/
def subtreePathsAt (doc : DNode) (root : Path) : List Path :=
  match nodeAt doc root with
  | some n => subtreePaths n root
  | none => []

/-- All text nodes of the document with their data, in document order. -/
def allTextNodesWithPaths (doc : DNode) : List (Path × String) :=
  (subtreePaths doc []).filterMap fun p =>
    match nodeAt doc p with
    | some (.text s) => some (p, s)
    | _ => none

/-- The segment of one text node covered by a range: character i is inside
the range when the point before it is not before the range start and the
point after it is not after the range end. -/
def segmentOfText (r : DRange) (p : Path) (s : String) : Option (Path × Nat × Nat) :=
  let len := s.data.length
  let lo := ((List.range len).filter
    (fun i => comparePoints p i r.sPath r.sOff = .lt)).length
  let hi := ((List.range len).filter
    (fun i => !(comparePoints p (i + 1) r.ePath r.eOff = .gt))).length
  if lo < hi then some (p, lo, hi) else none

/-- The text-node segments covered by a range, in document order. -/
def DRange.segments (doc : DNode) (r : DRange) : List (Path × Nat × Nat) :=
  (allTextNodesWithPaths doc).filterMap fun q => segmentOfText r q.1 q.2

/-- Range.toString: the concatenated covered character data. -/
def DRange.textOf (doc : DNode) (r : DRange) : String :=
  ((r.segments doc).map fun seg =>
    match textDataOf doc seg.1 with
    | some s => ⟨(s.data.drop seg.2.1).take (seg.2.2 - seg.2.1)⟩
    | none => ""
  ).foldl (· ++ ·) ""

/-! ## Tree walkers -/

/-- The verdicts of a TreeWalker filter. -/
inductive FilterResult where
  | accept
  | reject
  | skip
deriving DecidableEq, Repr

/-- The first path strictly after x in a path enumeration. -/
def listAfter (l : List Path) (x : Path) : Option Path :=
  match l.dropWhile (fun p => !(p == x)) with
  | _ :: rest => rest.head?
  | [] => none

/-- TreeWalker.lastChild for an accept-all walker. -/
def plainLastChild (doc : DNode) (p : Path) : Option Path :=
  match nodeAt doc p with
  | some (.elem _ kids) =>
    if kids.isEmpty then none else some (p ++ [kids.length - 1])
  | _ => none

/-- TreeWalker.parentNode for an accept-all walker rooted at root. -/
def walkerParent (root p : Path) : Option Path :=
  if p == root then none
  else match p.getLast? with
    | some _ => some p.dropLast
    | none => none

/-- TreeWalker.previousSibling for an accept-all walker rooted at root. -/
def walkerPreviousSibling (root p : Path) : Option Path :=
  if p == root then none
  else match p.getLast? with
    | some i => if i == 0 then none else some (p.dropLast ++ [i - 1])
    | none => none

/-- TreeWalker.nextNode for an accept-all walker rooted at root: the next
path of the root's subtree in document order. -/
def preorderNext (doc : DNode) (root cur : Path) : Option Path :=
  listAfter (subtreePathsAt doc root) cur

/-- The proper ancestors of p strictly below root. -/
def strictAncestorsBelow (root p : Path) : List Path :=
  ((List.range p.length).map (fun k => p.take k)).filter
    (fun a => root.length < a.length && pathContains root a)

/-- A node is visited by a filtered TreeWalker when its own verdict is
accept and no ancestor strictly between the walker root and the node is
rejected (rejection prunes whole subtrees). -/
def walkerVisible (filter : Path → FilterResult) (root p : Path) : Bool :=
  filter p == FilterResult.accept &&
    (strictAncestorsBelow root p).all (fun a => !(filter a == FilterResult.reject))

/-- All nodes a filtered TreeWalker rooted at root visits via successive
nextNode calls, in document order. -/
def walkerAccepted (doc : DNode) (filter : Path → FilterResult) (root : Path) :
    List Path :=
  (subtreePathsAt doc root).filter
    (fun p => !(p == root) && walkerVisible filter root p)

/-! ## The resolver (src/src/text-fragment-utils.js) -/

/-- JS exceptions that the embedded code can raise. -/
inductive JSErr where
  | typeError
  | referenceError
deriving DecidableEq, Repr

/-- One marker element, as the list of text-node segments it wraps
(text-node path, start offset, end offset). -/
abbrev Mark := List (Path × Nat × Nat)

/-- Replacement of every JS whitespace character by a space
(String.replace with the /\s/g pattern). -/
def replaceWs (s : String) : String :=
  ⟨s.data.map (fun c => if isJsWhitespace c then ' ' else c)⟩

/-- The character class [\t\n\r ] used by getTextContent. -/
def isTNRS (c : Char) : Bool :=
  c == '\t' || c == '\n' || c == '\r' || c == ' '

/-- Run collapse for the /[\t\n\r ]+/g to ' ' replacement; the flag records
whether the previous character was in the class. -/
def collapseTNRSAux : Bool → List Char → List Char
  | _, [] => []
  | inRun, c :: rest =>
    if isTNRS c then
      if inRun then collapseTNRSAux true rest
      else ' ' :: collapseTNRSAux true rest
    else c :: collapseTNRSAux false rest

/-- JS str.replace of [\t\n\r ] runs with a single space. -/
def collapseTNRS (s : String) : String :=
  ⟨collapseTNRSAux false s.data⟩

/-- JS String.split on a separator list; the first argument is fuel, which
callers set to the subject length plus one. -/
def jsSplitList : Nat → List Char → List Char → List String
  | 0, l, _ => [⟨l⟩]
  | fuel + 1, l, sep =>
    match jsIndexOfFrom l sep 0 with
    | none => [⟨l⟩]
    | some i => ⟨l.take i⟩ :: jsSplitList fuel (l.drop (i + sep.length)) sep

/-- JS String.split with a string separator. -/
def jsSplit (s sep : String) : List String :=
  match sep.data with
  | [] => s.data.map (fun c => String.mk [c])
  | _ => jsSplitList (s.data.length + 1) s.data sep.data

/-- The textContent of the node a path addresses, if the path is valid. -/
def nodeTextContentOf (doc : DNode) (p : Path) : Option String :=
  (nodeAt doc p).map textContent

mutual
/-- Translation of getAllTextNodes: the text-node descendants of an
element's children in order, with none marking the block breaks (block
children contribute only a break and are not entered). -/
def getAllTextNodesList : List DNode → Path → Nat → List (Option Path) → List (Option Path)
  | [], _, _, acc => acc
  | k :: ks, base, i, acc =>
    getAllTextNodesList ks base (i + 1) (getAllTextNodesItem k (base ++ [i]) acc)
def getAllTextNodesItem : DNode → Path → List (Option Path) → List (Option Path)
  | .text _, p, acc => acc ++ [some p]
  | .elem tag kids, p, acc =>
    if BLOCK_ELEMENTS.contains tag then
      if acc.getLast? == some none then acc else acc ++ [none]
    else getAllTextNodesList kids p 0 acc
end

/-- getAllTextNodes at a path. -/
def getAllTextNodes (doc : DNode) (p : Path) : List (Option Path) :=
  match nodeAt doc p with
  | some (.elem _ kids) => getAllTextNodesList kids p 0 []
  | _ => []

/-- Translation of getTextContent: concatenates the text of the listed
nodes, clipped by the outer offsets, and collapses [\t\n\r ] runs.
Reading textContent of a missing node (nodes empty, or an invalid path) is
the JS undefined dereference, a TypeError. -/
def getTextContent (doc : DNode) (nodes : List Path) (startOffset : Nat)
    (endOffset : Option Nat) : Except JSErr String :=
  match nodes with
  | [] => .error .typeError
  | [n] =>
    match nodeTextContentOf doc n with
    | some s => .ok (collapseTNRS (jsSubstring s startOffset endOffset))
    | none => .error .typeError
  | n :: rest =>
    match nodeTextContentOf doc n,
        nodeTextContentOf doc (rest.getLast?.getD n),
        rest.dropLast.mapM (nodeTextContentOf doc) with
    | some s0, some sl, some mids =>
      .ok (collapseTNRS (jsSubstring s0 startOffset none ++
        mids.foldl (· ++ ·) "" ++ jsSubstring sl 0 endOffset))
    | _, _, _ => .error .typeError

/-- Translation of shrinkRange over the resolver's state: the surviving
text-node list and the start/end offsets of the live range within its
first and last entries.  setStart and setEnd keep their collapse
semantics; stepping past the node list dereferences undefined. -/
def shrinkRange (doc : DNode) (start : Bool) (nodes : List Path)
    (sOff eOff : Nat) : Except JSErr (List Path × Nat × Nat) :=
  if start then
    match nodes with
    | [] => .error .typeError
    | c :: rest =>
      match nodeTextContentOf doc c with
      | none => .error .typeError
      | some s =>
        let offset := sOff + 1
        if offset ≥ s.data.length then
          match rest with
          | [] => .error .typeError
          | _ => .ok (rest, 0, eOff)
        else
          match rest with
          | [] =>
            if offset > eOff then .ok (nodes, offset, offset)
            else .ok (nodes, offset, eOff)
          | _ => .ok (nodes, offset, eOff)
  else
    match nodes with
    | [] => .error .typeError
    | _ =>
      if eOff == 0 then
        let nodes' := nodes.dropLast
        match nodes'.getLast? with
        | none => .error .typeError
        | some c2 =>
          match nodeTextContentOf doc c2 with
          | none => .error .typeError
          | some s2 => .ok (nodes', sOff, s2.data.length)
      else
        let offset := eOff - 1
        match nodes with
        | [_] =>
          if offset < sOff then .ok (nodes, offset, offset)
          else .ok (nodes, sOff, offset)
        | _ => .ok (nodes, sOff, offset)

/-- The reduce in findRangeNodeAndOffset splitting the text-node list into
sections at the null block breaks. -/
def textSections (l : List (Option Path)) : List (List Path) :=
  l.foldl (fun parts x =>
    match x with
    | some p => parts.dropLast ++ [parts.getLast?.getD [] ++ [p]]
    | none => parts ++ [[]]) [[]]

/-- The map step in findRangeNodeAndOffset: a section becomes a range over
its whole span, kept with its node list.  An empty section makes the JS
setStart(undefined) throw. -/
def sectionRangeData (doc : DNode) (sect : List Path) :
    Except JSErr (List Path × Nat × Nat) :=
  match sect with
  | [] => .error .typeError
  | s =>
    match nodeTextContentOf doc (s.getLast?.getD []) with
    | none => .error .typeError
    | some sl => .ok (s, 0, sl.data.length)

/-- The find step in findRangeNodeAndOffset: the first section whose text
content contains the query; finding none leaves JS destructuring
undefined, a TypeError. -/
def findMatchingSection (doc : DNode) (text : String) :
    List (List Path × Nat × Nat) → Except JSErr (List Path × Nat × Nat)
  | [] => .error .typeError
  | sd :: rest => do
    let t ← getTextContent doc sd.1 0 none
    if jsIncludes t.data text.data then .ok sd
    else findMatchingSection doc text rest

/-- The shrinking loop of findRangeNodeAndOffset; the first argument is
fuel (the loop body runs at most 21 times thanks to the i > 20 break, so
any fuel above 21 is exact), the second the JS iteration counter i. -/
def frnoLoop (doc : DNode) (text : String) (start : Bool) :
    Nat → Nat → List Path × Nat × Nat → Option (Path × Nat) →
    Except JSErr (Option (Path × Nat))
  | 0, _, _, best => .ok best
  | fuel + 1, i, (nodes, so, eo), best => do
    let t ← getTextContent doc nodes so (some eo)
    if jsIncludes t.data text.data then do
      let best := some (if start then (nodes.head?.getD [], so)
        else (nodes.getLast?.getD [], eo))
      let st ← shrinkRange doc start nodes so eo
      if i + 1 > 20 then .ok best
      else frnoLoop doc text start fuel (i + 1) st best
    else .ok best

/-- Translation of findRangeNodeAndOffset.  A none result models the JS
[undefined, undefined] return. -/
def findRangeNodeAndOffset (doc : DNode) (blockNode : Path) (text : String)
    (start : Bool) : Except JSErr (Option (Path × Nat)) := do
  let textNodes := getAllTextNodes doc blockNode
  let sectionData ← (textSections textNodes).mapM (sectionRangeData doc)
  let sd ← findMatchingSection doc text sectionData
  frnoLoop doc text start 30 0 sd none

/-- The acceptNode filter findText passes to its element walker: accept a
block element whose innerText (whitespace replaced by spaces) contains the
text, reject everything else; non-elements are invisible to a
SHOW_ELEMENT walker. -/
def findTextFilter (doc : DNode) (text : String) (p : Path) : FilterResult :=
  match nodeAt doc p with
  | some (.elem tag _) =>
    if BLOCK_ELEMENTS.contains tag &&
        jsIncludes (replaceWs (innerTextOf doc p)).data text.data then
      .accept
    else .reject
  | _ => .skip

/-- The reduce in findText splitting an element's innerText at the
innerText of its block-element children (element.children holds only
element nodes). -/
def buildTextParts : List DNode → List String → List String
  | [], parts => parts
  | k :: ks, parts =>
    match k with
    | .elem tag kids =>
      if BLOCK_ELEMENTS.contains tag then
        buildTextParts ks (parts.dropLast ++
          jsSplit (parts.getLast?.getD "") (innerTextItemList kids))
      else buildTextParts ks parts
    | .text _ => buildTextParts ks parts

/-- Translation of findText: the block elements directly containing the
text, one entry per matching text part (absent and empty queries are
falsy and return no matches). -/
def findText (doc : DNode) (t : Option String) : List Path :=
  match t with
  | none => []
  | some text =>
    if text == "" then []
    else
      (walkerAccepted doc (findTextFilter doc text) bodyPath).foldl
        (fun acc p =>
          let parts :=
            match nodeAt doc p with
            | some (.elem _ kids) => buildTextParts kids [innerTextOf doc p]
            | _ => []
          acc ++ (parts.filter
            (fun part => jsIncludes part.data text.data)).map (fun _ => p)) []

/-- The whole-node mark the middle loop of markRange creates around a text
node. -/
def wholeTextSegments (doc : DNode) (p : Path) : Mark :=
  match textDataOf doc p with
  | some s => [(p, 0, s.data.length)]
  | none => []

/-- The acceptNode filter of the markRange walker. -/
def markFilter (doc : DNode) (r : DRange) (p : Path) : FilterResult :=
  if !(r.intersectsNode p) then .reject
  else
    match nodeAt doc p with
    | some (.elem tag _) =>
      if BLOCK_ELEMENTS.contains tag then .accept else .skip
    | some (.text _) => .accept
    | none => .skip

/-- Translation of markRange.  Marks are modelled by the text segments
they wrap; surroundContents materializes a range's covered segments, and
each middle-loop mark wraps one whole text node.  The model keeps the
document immutable; inserting a mark around a text node does not change
the document-order position of any remaining traversal candidate, so the
walker visits the same nodes. -/
def markRange (doc : DNode) (r : DRange) : List Mark :=
  if !(isTextNode doc r.sPath) || !(isTextNode doc r.ePath) then []
  else if r.sPath == r.ePath then [r.segments doc]
  else
    let startNodeSubrange := r.setEndAfterNode r.sPath
    let endNodeSubrange := r.setStartBeforeNode r.ePath
    let innerRange := (r.setStartAfterNode r.sPath).setEndBeforeNode r.ePath
    let middleMarks :=
      ((walkerAccepted doc (markFilter doc innerRange)
          innerRange.commonAncestor).filter
        (fun p => isTextNode doc p)).map (wholeTextSegments doc)
    [startNodeSubrange.segments doc] ++ middleMarks ++
      [endNodeSubrange.segments doc]

/-- Translation of processTextFragmentDirective.  After the two guarded
branches the code reads the undeclared variable mark, a ReferenceError. -/
def processTextFragmentDirective (doc : DNode) (tf : TextFragment) :
    Except JSErr (List Mark) :=
  let prefixNodes := findText doc tf.prefixText
  let textStartNodes := findText doc tf.textStart
  let textEndNodes := findText doc tf.textEnd
  let suffixNodes := findText doc tf.suffixText
  if prefixNodes.length > 1 || textStartNodes.length > 1 ||
      textEndNodes.length > 1 || suffixNodes.length > 1 then
    .ok []
  else if prefixNodes.length == 0 && suffixNodes.length == 0 &&
      textStartNodes.length == 1 then do
    let se ←
      if textEndNodes.length == 0 then do
        let s ← findRangeNodeAndOffset doc (textStartNodes.head?.getD [])
          (tf.textStart.getD "") true
        let e ← findRangeNodeAndOffset doc (textStartNodes.head?.getD [])
          (tf.textStart.getD "") false
        pure (s, e)
      else do
        let s ← findRangeNodeAndOffset doc (textStartNodes.head?.getD [])
          (tf.textStart.getD "") true
        let e ← findRangeNodeAndOffset doc (textEndNodes.head?.getD [])
          (tf.textEnd.getD "") false
        pure (s, e)
    match se with
    | (some (sp, so), some (ep, eo)) =>
      .ok (markRange doc (((⟨[], 0, [], 0⟩ : DRange).setStart sp so).setEnd ep eo))
    | _ => .error .typeError
  else
    .error .referenceError

/-! ## The generation module (embedded in
src/test/fragment-generation-utils-test.js) -/

/-- JS Map get over the override maps (set prepends, get takes the newest
entry). -/
def mapGet (m : List (Path × Option Path)) (k : Path) : Option (Option Path) :=
  (m.find? (fun e => e.1 == k)).map (fun e => e.2)

/-- Translation of trimBoundary: clips the string at the first and last
characters that are not boundary characters. -/
def trimBoundary (s : String) : String :=
  match jsSearch s (fun c => !isBoundaryChar c),
      jsSearch (reverseString s) (fun c => !isBoundaryChar c) with
  | some si, some ei0 =>
    let ei := s.data.length - ei0
    if si ≥ ei then "" else jsSubstring s si (some ei)
  | _, _ => ""

/-- Translation of findWordStartBoundInTextNode; the JS -1 is none, and an
absent startOffset searches the entire node. -/
def findWordStartBoundInTextNode (doc : DNode) (p : Path)
    (startOffset : Option Nat) : Option Nat :=
  match textDataOf doc p with
  | none => none
  | some s =>
    let offset := startOffset.getD s.data.length
    if decide (offset < s.data.length) &&
        isBoundaryChar ((s.data.get? offset).getD ' ') then
      some offset
    else
      match jsSearch (reverseString (jsSubstring s 0 (some offset)))
          isBoundaryChar with
      | some boundaryIndex => some (offset - boundaryIndex)
      | none => none

/-- Translation of findWordEndBoundInTextNode. -/
def findWordEndBoundInTextNode (doc : DNode) (p : Path)
    (endOffset : Option Nat) : Option Nat :=
  match textDataOf doc p with
  | none => none
  | some s =>
    let offset := endOffset.getD 0
    if decide (offset < s.data.length) && decide (0 < offset) &&
        isBoundaryChar ((s.data.get? (offset - 1)).getD ' ') then
      some offset
    else
      match jsSearch (jsSubstring s offset none) isBoundaryChar with
      | some boundaryIndex => some (offset + boundaryIndex)
      | none => none

mutual
/-- A bound on the depth of the node tree, used as fuel for descents. -/
def depthBound : DNode → Nat
  | .text _ => 1
  | .elem _ kids => 1 + depthBoundList kids
def depthBoundList : List DNode → Nat
  | [] => 0
  | k :: ks => max (depthBound k) (depthBoundList ks)
end

/-- The ancestor climb of makeWalkerForNode: the nearest ancestor of the
node that is a block element and contains the target; the fuel is the
path depth.  The document root is a block that contains everything, so
the climb always stops. -/
def makeWalkerRoot : Nat → DNode → Path → Option Path → Path
  | 0, _, p, _ => p
  | fuel + 1, doc, p, endNode =>
    let tgt := endNode.getD p
    if pathContains p tgt && isBlock doc p then p
    else
      match p with
      | [] => []
      | _ => makeWalkerRoot fuel doc p.dropLast endNode

/-- The lastChild descent inside createForwardOverrideMap: steps to the
last child until there is none, breaking as soon as a previously seen
ancestor is reached. -/
def descendLastChild : Nat → DNode → Path → List Path → Path
  | 0, _, p, _ => p
  | fuel + 1, doc, p, ancestors =>
    match plainLastChild doc p with
    | none => p
    | some c =>
      if ancestors.contains c then c
      else descendLastChild fuel doc c ancestors

/-- The do-while of createForwardOverrideMap, walking from the start node
up to the walker root; the fuel is the start node's depth. -/
def cfomGo (doc : DNode) (root : Path) : Nat → Path → List Path →
    List (Path × Option Path) → List (Path × Option Path)
  | 0, _, _, m => m
  | fuel + 1, node, ancestors, m =>
    let ancestors := node :: ancestors
    let descended := descendLastChild (depthBound doc) doc node ancestors
    let m := if descended == node then m else (descended, some node) :: m
    let m := (node, preorderNext doc root descended) :: m
    match walkerParent root node with
    | some par => cfomGo doc root fuel par ancestors m
    | none => m

/-- Translation of createForwardOverrideMap: maps the last descendant of
each ancestor of the start node back to that ancestor (postorder), and
each ancestor to the node after the subtree it closes. -/
def createForwardOverrideMap (fuel : Nat) (doc : DNode) (root start : Path) :
    List (Path × Option Path) :=
  cfomGo doc root fuel start [] []

/-- Translation of forwardTraverse: the override jump when the current
node is mapped, otherwise the document-order successor; returns the
traversal result and the walker's new current node. -/
def forwardTraverse (doc : DNode) (root : Path)
    (m : List (Path × Option Path)) (cur : Path) : Option Path × Path :=
  match mapGet m cur with
  | some (some o) => (some o, o)
  | some none => (none, cur)
  | none =>
    match preorderNext doc root cur with
    | some n => (some n, n)
    | none => (none, cur)

/-- Translation of backwardTraverse: visits parents before their children
except on the chain of ancestors of the origin; returns the traversal
result, the walker's new current node and the updated visited set. -/
def backwardTraverse : Nat → DNode → Path → Path → List Path → Path →
    Option Path × Path × List Path
  | 0, _, _, cur, visited, _ => (none, cur, visited)
  | fuel + 1, doc, root, cur, visited, origin =>
    let fresh := !visited.contains cur && !pathContains cur origin
    let visited := if fresh then cur :: visited else visited
    match if fresh then plainLastChild doc cur else none with
    | some c => (some c, c, visited)
    | none =>
      match walkerPreviousSibling root cur with
      | some s => (some s, s, visited)
      | none =>
        match walkerParent root cur with
        | none => (none, cur, visited)
        | some par =>
          if !visited.contains par then (some par, par, visited)
          else backwardTraverse fuel doc root par visited origin

/-- Translation of getFirstNodeForBlockSearch. -/
def getFirstNodeForBlockSearch (doc : DNode) (r : DRange) : Path :=
  match nodeAt doc r.sPath with
  | some (.elem _ kids) =>
    if r.sOff < kids.length then r.sPath ++ [r.sOff] else r.sPath
  | _ => r.sPath

/-- Translation of getLastNodeForBlockSearch. -/
def getLastNodeForBlockSearch (doc : DNode) (r : DRange) : Path :=
  match nodeAt doc r.ePath with
  | some (.elem _ _) =>
    if r.eOff > 0 then r.ePath ++ [r.eOff - 1] else r.ePath
  | _ => r.ePath

/-- The loop of containsBlockBoundary. -/
def cbbLoop (doc : DNode) (root : Path) (m : List (Path × Option Path)) :
    Nat → DRange → Path → Bool
  | 0, _, _ => false
  | fuel + 1, tempRange, node =>
    if tempRange.collapsed then false
    else if isBlock doc node then true
    else
      let tempRange := tempRange.setStartAfterNode node
      match forwardTraverse doc root m node with
      | (some n, _) => cbbLoop doc root m fuel tempRange n
      | (none, _) => false

/-- Translation of containsBlockBoundary. -/
def containsBlockBoundary (fuel : Nat) (doc : DNode) (range : DRange) : Bool :=
  let node := getFirstNodeForBlockSearch doc range
  let root := makeWalkerRoot fuel doc node none
  let m := createForwardOverrideMap fuel doc root node
  cbbLoop doc root m fuel range node

/-- Translation of canUseExactMatch. -/
def canUseExactMatch (fuel : Nat) (doc : DNode) (range : DRange) : Bool :=
  if (range.textOf doc).data.length > MAX_EXACT_MATCH_LENGTH then false
  else !containsBlockBoundary fuel doc range

/-- The backward loop of expandRangeStartToWordBound. -/
def erstLoop (doc : DNode) (root : Path) (range : DRange) (origin : Path) :
    Nat → Path → List Path → DRange
  | 0, _, _ => range.collapseToEnd
  | fuel + 1, cur, visited =>
    match backwardTraverse (fuel + 1) doc root cur visited origin with
    | (none, _, _) => range.collapseToEnd
    | (some node, _, visited) =>
      match findWordStartBoundInTextNode doc node none with
      | some off => range.setStart node off
      | none =>
        if isBlock doc node then
          if pathContains node range.sPath then range.setStart node 0
          else range.setStartAfterNode node
        else erstLoop doc root range origin fuel node visited

/-- Translation of expandRangeStartToWordBound. -/
def expandRangeStartToWordBound (fuel : Nat) (doc : DNode) (range : DRange) :
    DRange :=
  match findWordStartBoundInTextNode doc range.sPath (some range.sOff) with
  | some newOffset => range.setStart range.sPath newOffset
  | none =>
    if isBlock doc range.sPath && range.sOff == 0 then range
    else
      let root := makeWalkerRoot fuel doc range.sPath none
      erstLoop doc root range range.sPath fuel range.sPath []

/-- The forward loop of expandRangeEndToWordBound. -/
def eretLoop (doc : DNode) (root : Path) (m : List (Path × Option Path))
    (range : DRange) : Nat → Option Nat → Path → DRange
  | 0, _, _ => range.collapseToEnd
  | fuel + 1, initialOffset, node =>
    match findWordEndBoundInTextNode doc node initialOffset with
    | some newOffset => range.setEnd node newOffset
    | none =>
      if isBlock doc node then
        if pathContains node range.ePath then
          range.setEnd node (childCountOf doc node)
        else range.setEndBeforeNode node
      else
        match forwardTraverse doc root m node with
        | (some n, _) => eretLoop doc root m range fuel none n
        | (none, _) => range.collapseToEnd

/-- Translation of expandRangeEndToWordBound. -/
def expandRangeEndToWordBound (fuel : Nat) (doc : DNode) (range : DRange) :
    DRange :=
  let node :=
    match nodeAt doc range.ePath with
    | some (.elem _ kids) =>
      if range.eOff < kids.length then range.ePath ++ [range.eOff]
      else range.ePath
    | _ => range.ePath
  let root := makeWalkerRoot fuel doc node none
  let m := createForwardOverrideMap fuel doc root node
  eretLoop doc root m range fuel (some range.eOff) node

/-- The forward loop of getSearchSpaceForStart. -/
def gssStartLoop (doc : DNode) (root : Path) (m : List (Path × Option Path))
    (range : DRange) (origin : Path) : Nat → DRange → Path → Option String
  | 0, _, _ => none
  | fuel + 1, tempRange, node =>
    if tempRange.collapsed then none
    else
      let tempRange :=
        if pathContains node origin then tempRange.setStartAfterNode node
        else tempRange.setStartBeforeNode node
      let blockHit :=
        if isBlock doc node then
          let candidate := range.setEnd tempRange.sPath tempRange.sOff
          let trimmed := trimBoundary (candidate.textOf doc)
          if trimmed.data.length > 0 then some trimmed else none
        else none
      match blockHit with
      | some res => some res
      | none =>
        match forwardTraverse doc root m node with
        | (some n, _) => gssStartLoop doc root m range origin fuel tempRange n
        | (none, _) => none

/-- Translation of getSearchSpaceForStart. -/
def getSearchSpaceForStart (fuel : Nat) (doc : DNode) (range : DRange) :
    Option String :=
  let node := getFirstNodeForBlockSearch doc range
  let root := makeWalkerRoot fuel doc node (some range.ePath)
  let m := createForwardOverrideMap fuel doc root node
  gssStartLoop doc root m range node fuel range node

/-- The backward loop of getSearchSpaceForEnd. -/
def gssEndLoop (doc : DNode) (root : Path) (range : DRange) (origin : Path) :
    Nat → DRange → Path → List Path → Option String
  | 0, _, _, _ => none
  | fuel + 1, tempRange, node, visited =>
    if tempRange.collapsed then none
    else
      let tempRange :=
        if pathContains node origin then tempRange.setEnd node 0
        else tempRange.setEndAfterNode node
      let blockHit :=
        if isBlock doc node then
          let candidate := range.setStart tempRange.ePath tempRange.eOff
          let trimmed := trimBoundary (candidate.textOf doc)
          if trimmed.data.length > 0 then some trimmed else none
        else none
      match blockHit with
      | some res => some res
      | none =>
        match backwardTraverse (fuel + 1) doc root node visited origin with
        | (some n, _, visited) => gssEndLoop doc root range origin fuel tempRange n visited
        | (none, _, _) => none

/-- Translation of getSearchSpaceForEnd. -/
def getSearchSpaceForEnd (fuel : Nat) (doc : DNode) (range : DRange) :
    Option String :=
  let node := getLastNodeForBlockSearch doc range
  let root := makeWalkerRoot fuel doc node (some range.sPath)
  gssEndLoop doc root range node fuel range node []

/-- Translation of isUniquelyIdentifying: resolve and compare the match
count with 1; a resolver exception propagates. -/
def isUniquelyIdentifying (doc : DNode) (tf : TextFragment) :
    Except JSErr Bool :=
  (processTextFragmentDirective doc tf).map (fun marks => marks.length == 1)

/-- Translation of FragmentFactory.tryToMakeUniqueFragment. -/
def tryToMakeUniqueFragment (doc : DNode) (f : FragmentFactory) :
    Except JSErr (Option TextFragment) :=
  let fragment : TextFragment :=
    if f.mode = .contextOnly then
      { textStart := some f.exactTextMatch }
    else
      { textStart := some (trimBoundary
          (jsSubstring f.getStartSearchSpace 0 (some (f.startOffset.getD 0))))
        textEnd := some (trimBoundary
          (jsSubstring f.getEndSearchSpace (f.endOffset.getD 0) none)) }
  let fragment :=
    match f.prefixOffset with
    | none => fragment
    | some po =>
      let pfx := trimBoundary (jsSubstring f.getPrefixSearchSpace po none)
      if pfx == "" then fragment else { fragment with prefixText := some pfx }
  let fragment :=
    match f.suffixOffset with
    | none => fragment
    | some so =>
      let sfx := trimBoundary (jsSubstring f.getSuffixSearchSpace 0 (some so))
      if sfx == "" then fragment else { fragment with suffixText := some sfx }
  (isUniquelyIdentifying doc fragment).map
    (fun u => if u then some fragment else none)

/-- The status values of generateFragment. -/
inductive GenStatus where
  | success
  | invalidSelection
  | ambiguous
deriving DecidableEq, Repr

/-- The result record of generateFragment. -/
structure GenerateResult where
  status : GenStatus
  fragment : Option TextFragment := none
deriving DecidableEq, Repr

/-- The while (factory.embiggen()) loop of generateFragment. -/
def embiggenLoop (doc : DNode) : Nat → FragmentFactory →
    Except JSErr GenerateResult
  | 0, _ => .ok ⟨.ambiguous, none⟩
  | fuel + 1, factory =>
    let (grew, factory) := factory.embiggen
    if grew then
      match tryToMakeUniqueFragment doc factory with
      | .error e => .error e
      | .ok (some fragment) => .ok ⟨.success, some fragment⟩
      | .ok none => embiggenLoop doc fuel factory
    else .ok ⟨.ambiguous, none⟩

/-- Translation of generateFragment; a none selection models the
getRangeAt failure that returns INVALID_SELECTION. -/
def generateFragment (fuel : Nat) (doc : DNode) (selection : Option DRange) :
    Except JSErr GenerateResult :=
  match selection with
  | none => .ok ⟨.invalidSelection, none⟩
  | some range0 =>
    let range := expandRangeStartToWordBound fuel doc range0
    let range := expandRangeEndToWordBound fuel doc range
    let exactText := normalizeString (range.textOf doc)
    let exactAttempt : Except JSErr (Option GenerateResult) :=
      if canUseExactMatch fuel doc range then
        (isUniquelyIdentifying doc { textStart := some exactText }).map
          (fun u =>
            if u then some ⟨.success, some { textStart := some exactText }⟩
            else none)
      else .ok none
    match exactAttempt with
    | .error e => .error e
    | .ok (some res) => .ok res
    | .ok none =>
      let factory :=
        if canUseExactMatch fuel doc range then
          FragmentFactory.new.setExactTextMatch exactText
        else
          match getSearchSpaceForStart fuel doc range,
              getSearchSpaceForEnd fuel doc range with
          | some s, some e => FragmentFactory.new.setStartAndEndSearchSpace s e
          | _, _ =>
            FragmentFactory.new.setSharedSearchSpace
              (trimBoundary (range.textOf doc))
      let prefixRange :=
        (DRange.selectNodeContents doc bodyPath).setEnd range.sPath range.sOff
      let suffixRange :=
        (DRange.selectNodeContents doc bodyPath).setStart range.ePath range.eOff
      let prefixSearchSpace := getSearchSpaceForEnd fuel doc prefixRange
      let suffixSearchSpace := getSearchSpaceForStart fuel doc suffixRange
      let factory :=
        match prefixSearchSpace, suffixSearchSpace with
        | some p, some s => factory.setPrefixAndSuffixSearchSpace p s
        | _, _ => factory
      embiggenLoop doc fuel factory

deriving instance DecidableEq for Except

/-! ## Concrete documents and inputs used by the claim analyses -/

/-- The text a single mark wraps. -/
def markText (doc : DNode) (m : Mark) : String :=
  (m.map (fun seg =>
    match textDataOf doc seg.1 with
    | some s => (⟨(s.data.drop seg.2.1).take (seg.2.2 - seg.2.1)⟩ : String)
    | none => "")).foldl (· ++ ·) ""

/-- Whether all segments of a mark lie in one text node. -/
def markSingleNode (m : Mark) : Bool :=
  match m with
  | [] => true
  | seg :: rest => rest.all (fun s2 => s2.1 == seg.1)

/-- A one-paragraph document. -/
def c1doc : DNode := mkDoc [.elem "P" [.text "hello world."]]

/-- A selection of the partial word range "ello world" in c1doc. -/
def c1sel : DRange := ⟨[0, 0, 0], 1, [0, 0, 0], 11⟩

/-- The fragment generateFragment produces for c1sel. -/
def c1frag : TextFragment := { textStart := some "hello world" }

/-- The single mark resolving c1frag against c1doc produces. -/
def c1mark : Mark := [([0, 0, 0], 0, 11)]

/-- The whole-phrase selection "hello world" in c1doc. -/
def c2sel : DRange := ⟨[0, 0, 0], 0, [0, 0, 0], 11⟩

/-- A document with a unique prefix and a unique target in separate
paragraphs. -/
def c6doc : DNode := mkDoc [.elem "P" [.text "prefix3 something"],
  .elem "P" [.text "target"]]

/-- The fragment of the spec's example: prefix then textStart. -/
def c6frag : TextFragment :=
  { prefixText := some "prefix3", textStart := some "target" }

/-- A document whose override map jumps backward: the non-block SPAN
ancestor of the origin text node is mapped to a text node preceding the
origin. -/
def c9doc : DNode := mkDoc [
  .elem "DIV" [
    .elem "SPAN" [.elem "SPAN" [.text "has space", .text "zzz"]],
    .text "tail"]]

/-- A range inside the trailing "zzz" text node of c9doc. -/
def c9range : DRange := ⟨[0, 0, 0, 0, 1], 0, [0, 0, 0, 0, 1], 1⟩

/-- A document where the word x occurs in two paragraphs, each time with
distinct surrounding context. -/
def c10doc : DNode := mkDoc [.elem "P" [.text "x alpha y"],
  .elem "P" [.text "x beta y"]]

/-- A fragment whose textStart is found in both paragraphs of c10doc even
though its prefix picks out the second occurrence uniquely. -/
def c10frag : TextFragment :=
  { prefixText := some "alpha", textStart := some "x" }

end TFP

namespace TFP

/-! ## Lemmas about the normalizer (claim C4) -/

/-- Step equation: a whitespace character continues a whitespace run. -/
theorem collapseWsAux_ws_true (c : Char) (cs : List Char)
    (h : isJsWhitespace c = true) :
    collapseWsAux true (c :: cs) = collapseWsAux true cs := by
  simp [collapseWsAux, h]

/-- Step equation: a whitespace character opens a whitespace run. -/
theorem collapseWsAux_ws_false (c : Char) (cs : List Char)
    (h : isJsWhitespace c = true) :
    collapseWsAux false (c :: cs) = ' ' :: collapseWsAux true cs := by
  simp [collapseWsAux, h]

/-- Step equation: a non-whitespace character is copied through. -/
theorem collapseWsAux_nonws (b : Bool) (c : Char) (cs : List Char)
    (h : isJsWhitespace c = false) :
    collapseWsAux b (c :: cs) = c :: collapseWsAux false cs := by
  simp [collapseWsAux, h]

/-- Helper: a successful association-list lookup comes from a member pair. -/
theorem lookup_mem {α β : Type} [BEq α] [LawfulBEq α]
    (tbl : List (α × β)) (a : α) (b : β)
    (h : tbl.lookup a = some b) : (a, b) ∈ tbl := by
  induction tbl with
  | nil => simp [List.lookup] at h
  | cons p ps ih =>
    obtain ⟨k, v⟩ := p
    cases hk : (a == k) with
    | true =>
      simp only [List.lookup, hk] at h
      have hak : a = k := eq_of_beq hk
      have hvb : v = b := by exact Option.some.inj h
      rw [hak, hvb]
      exact List.mem_cons_self ..
    | false =>
      simp only [List.lookup, hk] at h
      exact List.mem_cons_of_mem _ (ih h)

/-- Every character produced by the modelled NFKD is decomposition-free. -/
theorem charNFKD_fixed_of_mem (c d : Char) (h : d ∈ charNFKD c) :
    charNFKD d = [d] := by
  unfold charNFKD at h ⊢
  cases hc : nfkdTable.lookup c with
  | none =>
    rw [hc] at h
    simp at h
    subst h
    rw [hc]
  | some l =>
    rw [hc] at h
    have hmem := lookup_mem _ _ _ hc
    have hall : ∀ p ∈ nfkdTable, ∀ d ∈ p.2, nfkdTable.lookup d = none := by decide
    rw [hall (c, l) hmem d h]

/-- Characters of an NFKD-normalized list are decomposition-free. -/
theorem charNFKD_fixed_of_mem_nfkdList (l : List Char) (c : Char)
    (h : c ∈ nfkdList l) : charNFKD c = [c] := by
  unfold nfkdList at h
  obtain ⟨a, _, hmem⟩ := List.mem_flatMap.mp h
  exact charNFKD_fixed_of_mem a c hmem

/-- NFKD is the identity on a pointwise decomposition-free list. -/
theorem nfkdList_eq_self (l : List Char) (h : ∀ c ∈ l, charNFKD c = [c]) :
    nfkdList l = l := by
  induction l with
  | nil => rfl
  | cons c cs ih =>
    unfold nfkdList at ih ⊢
    rw [List.flatMap_cons, h c (List.mem_cons_self ..),
      ih fun d hd => h d (List.mem_cons_of_mem _ hd)]
    rfl

/-- Characters surviving whitespace collapsing come from the input or are
the space character. -/
theorem mem_collapseWsAux (b : Bool) (l : List Char) (c : Char)
    (h : c ∈ collapseWsAux b l) : c ∈ l ∨ c = ' ' := by
  induction l generalizing b with
  | nil => simp [collapseWsAux] at h
  | cons d ds ih =>
    by_cases hd : isJsWhitespace d = true
    · cases b with
      | true =>
        rw [collapseWsAux_ws_true d ds hd] at h
        rcases ih _ h with h1 | h1
        · exact Or.inl (List.mem_cons_of_mem _ h1)
        · exact Or.inr h1
      | false =>
        rw [collapseWsAux_ws_false d ds hd] at h
        rcases List.mem_cons.mp h with h1 | h1
        · exact Or.inr h1
        · rcases ih _ h1 with h2 | h2
          · exact Or.inl (List.mem_cons_of_mem _ h2)
          · exact Or.inr h2
    · rw [collapseWsAux_nonws b d ds (by simpa using hd)] at h
      rcases List.mem_cons.mp h with h1 | h1
      · exact Or.inl (h1 ▸ List.mem_cons_self ..)
      · rcases ih _ h1 with h2 | h2
        · exact Or.inl (List.mem_cons_of_mem _ h2)
        · exact Or.inr h2

/-- Whitespace collapsing is idempotent (both the run-started and the
run-not-started variants). -/
theorem collapseWsAux_idem (l : List Char) :
    (∀ b, collapseWsAux false (collapseWsAux b l) = collapseWsAux b l) ∧
      collapseWsAux true (collapseWsAux true l) = collapseWsAux true l := by
  induction l with
  | nil => exact ⟨fun b => rfl, rfl⟩
  | cons c cs ih =>
    obtain ⟨ihP, ihQ⟩ := ih
    by_cases hc : isJsWhitespace c = true
    · constructor
      · intro b
        cases b with
        | true =>
          rw [collapseWsAux_ws_true c cs hc]
          exact ihP true
        | false =>
          rw [collapseWsAux_ws_false c cs hc,
            collapseWsAux_ws_false ' ' _ (by decide), ihQ]
      · rw [collapseWsAux_ws_true c cs hc]
        exact ihQ
    · have hc2 : isJsWhitespace c = false := by simpa using hc
      constructor
      · intro b
        rw [collapseWsAux_nonws b c cs hc2, collapseWsAux_nonws false c _ hc2,
          ihP false]
      · rw [collapseWsAux_nonws true c cs hc2, collapseWsAux_nonws true c _ hc2,
          ihP false]

/-- Lowercasing is pointwise idempotent. -/
theorem charLower_idem (c : Char) : charLower (charLower c) = charLower c := by
  unfold charLower
  cases h : lowerTable.lookup c with
  | none => simp [h]
  | some b =>
    have hmem := lookup_mem _ _ _ h
    have hall : ∀ p ∈ lowerTable, lowerTable.lookup p.2 = none := by decide
    simp [hall (c, b) hmem]

/-- Lowercasing does not change whitespace-ness. -/
theorem isJsWhitespace_charLower (c : Char) :
    isJsWhitespace (charLower c) = isJsWhitespace c := by
  unfold charLower
  cases h : lowerTable.lookup c with
  | none => simp
  | some b =>
    have hmem := lookup_mem _ _ _ h
    have hfacts : ∀ p ∈ lowerTable,
        isJsWhitespace p.1 = false ∧ isJsWhitespace p.2 = false := by decide
    obtain ⟨h1, h2⟩ := hfacts (c, b) hmem
    simp [h1, h2]

/-- Lowercasing preserves freedom from combining marks. -/
theorem isCombiningMark_charLower (c : Char) (h : isCombiningMark c = false) :
    isCombiningMark (charLower c) = false := by
  unfold charLower
  cases hl : lowerTable.lookup c with
  | none => simpa using h
  | some b =>
    have hmem := lookup_mem _ _ _ hl
    have hall : ∀ p ∈ lowerTable, isCombiningMark p.2 = false := by decide
    simpa using hall (c, b) hmem

/-- Lowercasing preserves decomposition-freeness. -/
theorem charNFKD_fixed_charLower (c : Char) (h : charNFKD c = [c]) :
    charNFKD (charLower c) = [charLower c] := by
  unfold charLower
  cases hl : lowerTable.lookup c with
  | none => simpa using h
  | some b =>
    have hmem := lookup_mem _ _ _ hl
    have hall : ∀ p ∈ lowerTable, nfkdTable.lookup p.2 = none := by decide
    simp only [Option.getD_some]
    unfold charNFKD
    rw [hall (c, b) hmem]

/-- Whitespace collapsing commutes with lowercasing. -/
theorem collapseWsAux_lowerList (l : List Char) (b : Bool) :
    collapseWsAux b (lowerList l) = lowerList (collapseWsAux b l) := by
  induction l generalizing b with
  | nil => rfl
  | cons c cs ih =>
    show collapseWsAux b (charLower c :: lowerList cs) = _
    by_cases hc : isJsWhitespace c = true
    · have hlc : isJsWhitespace (charLower c) = true := by
        rw [isJsWhitespace_charLower]; exact hc
      cases b with
      | true =>
        rw [collapseWsAux_ws_true _ _ hlc, collapseWsAux_ws_true c cs hc]
        exact ih true
      | false =>
        rw [collapseWsAux_ws_false _ _ hlc, collapseWsAux_ws_false c cs hc]
        show _ = charLower ' ' :: lowerList (collapseWsAux true cs)
        rw [ih true]
        rfl
    · have hc2 : isJsWhitespace c = false := by simpa using hc
      have hlc : isJsWhitespace (charLower c) = false := by
        rw [isJsWhitespace_charLower]; exact hc2
      rw [collapseWsAux_nonws b _ _ hlc, collapseWsAux_nonws b c cs hc2]
      show _ = charLower c :: lowerList (collapseWsAux false cs)
      rw [ih false]


/-- The whole normalizer pipeline on a character list. -/
theorem normalizeString_data (s : String) :
    (normalizeString s).data =
      lowerList (stripMarks (collapseWs (nfkdList s.data))) := rfl

/-- Claim C4 (amended): normalizeString is idempotent on every string whose
NFKD decomposition contains no combining diacritical mark U+0300 to U+036F.
Unrestricted idempotence fails (see the counterexample theorem): deleting a
combining mark can merge two whitespace runs that are then not
re-collapsed. -/
theorem normalizeString_idempotent_of_no_combining_marks (s : String)
    (h : (nfkdList s.data).all (fun c => !isCombiningMark c) = true) :
    normalizeString (normalizeString s) = normalizeString s := by
  have hmarks : ∀ c ∈ nfkdList s.data, isCombiningMark c = false := by
    intro c hc
    have := List.all_eq_true.mp h c hc
    simpa using this
  -- names for the successive pipeline stages of the first pass
  set L := nfkdList s.data with hL
  set f1 := collapseWs L with hf1
  -- the collapsed list is still free of combining marks
  have hf1marks : ∀ c ∈ f1, isCombiningMark c = false := by
    intro c hc
    rcases mem_collapseWsAux false L c hc with hmem | hsp
    · exact hmarks c hmem
    · rw [hsp]; decide
  -- so the stripping stage is the identity on it
  have hstrip1 : stripMarks f1 = f1 := by
    apply List.filter_eq_self.mpr
    intro a ha
    simp [hf1marks a ha]
  set f2 := lowerList f1 with hf2
  have hdata : (normalizeString s).data = f2 := by
    rw [normalizeString_data, ← hL, ← hf1, hstrip1, ← hf2]
  -- every character of the first-pass output is decomposition-free
  have hfix2 : ∀ c ∈ f2, charNFKD c = [c] := by
    intro c hc
    obtain ⟨a, ha, rfl⟩ := List.mem_map.mp hc
    rcases mem_collapseWsAux false L a ha with hmem | hsp
    · exact charNFKD_fixed_charLower a (charNFKD_fixed_of_mem_nfkdList _ a hmem)
    · rw [hsp]; decide
  -- and still free of combining marks
  have hf2marks : ∀ c ∈ f2, isCombiningMark c = false := by
    intro c hc
    obtain ⟨a, ha, rfl⟩ := List.mem_map.mp hc
    exact isCombiningMark_charLower a (hf1marks a ha)
  have hnfkd2 : nfkdList f2 = f2 := nfkdList_eq_self f2 hfix2
  have hcollapse2 : collapseWs f2 = f2 := by
    show collapseWsAux false (lowerList f1) = lowerList f1
    rw [collapseWsAux_lowerList f1 false, hf1]
    show lowerList (collapseWsAux false (collapseWsAux false L)) = _
    rw [(collapseWsAux_idem L).1 false]
    rfl
  have hstrip2 : stripMarks f2 = f2 := by
    apply List.filter_eq_self.mpr
    intro a ha
    simp [hf2marks a ha]
  have hlower2 : lowerList f2 = f2 := by
    rw [hf2]
    show List.map charLower (List.map charLower f1) = List.map charLower f1
    rw [List.map_map]
    exact List.map_congr_left fun a _ => charLower_idem a
  apply String.ext
  rw [normalizeString_data, hdata, hnfkd2, hcollapse2, hstrip2, hlower2]

/-- Claim C4 (counterexample): normalizeString is not idempotent.  On the
three-character input space, combining grave accent, space the first pass
yields two spaces while the second pass yields one space. -/
theorem normalizeString_not_idempotent :
    normalizeString (normalizeString c4input) ≠ normalizeString c4input := by
  decide

/-- Claim C4 (witness for the amended theorem): the hypothesis holds and the
conclusion follows for a concrete mark-free string. -/
theorem normalizeString_idempotent_witness :
    ((nfkdList (String.data "\n Kirby\t Puckett   ")).all
        (fun c => !isCombiningMark c) = true) ∧
      normalizeString (normalizeString "\n Kirby\t Puckett   ") =
        normalizeString "\n Kirby\t Puckett   " :=
  ⟨by decide,
    normalizeString_idempotent_of_no_combining_marks _ (by decide)⟩


/-! ## Lemmas about the fragment factory (claims C3 and C7) -/

/-- A found index lies inside the list. -/
theorem findIdxFrom_lt (l : List Char) (p : Char → Bool) (i : Nat)
    (h : findIdxFrom l p = some i) : i < l.length := by
  induction l generalizing i with
  | nil => simp [findIdxFrom] at h
  | cons c cs ih =>
    rw [findIdxFrom] at h
    by_cases hc : p c = true
    · rw [if_pos hc] at h
      have h0 : i = 0 := (Option.some.inj h).symm
      subst h0
      simp
    · rw [if_neg hc] at h
      cases hrec : findIdxFrom cs p with
      | none => rw [hrec] at h; simp at h
      | some j =>
        rw [hrec] at h
        simp at h
        have := ih j hrec
        simp [List.length_cons]
        omega

/-- The one-argument JS substring is a drop. -/
theorem jsSubstring_none_data (s : String) (st : Nat) :
    (jsSubstring s st none).data = s.data.drop st := by
  unfold jsSubstring
  dsimp only
  simp only [Option.getD_none, Nat.min_self]
  have h1 : min (min st s.data.length) s.data.length = min st s.data.length := by
    rw [Nat.min_assoc, Nat.min_self]
  have h2 : max (min st s.data.length) s.data.length = s.data.length :=
    Nat.max_eq_right (Nat.min_le_right _ _)
  rw [h1, h2]
  rcases Nat.le_total st s.data.length with hle | hge
  · rw [Nat.min_eq_left hle]
    exact List.take_of_length_le (by simp)
  · rw [Nat.min_eq_right hge]
    rw [List.drop_length]
    rw [List.take_nil, List.drop_eq_nil_of_le hge]

/-- The substring from zero is a take. -/
theorem jsSubstring_zero_data (s : String) (e : Nat) :
    (jsSubstring s 0 (some e)).data = s.data.take e := by
  unfold jsSubstring
  dsimp only
  simp only [Option.getD_some, Nat.min_self, Nat.zero_min, Nat.min_zero]
  have h2 : max 0 (min e s.data.length) = min e s.data.length :=
    Nat.max_eq_right (Nat.zero_le _)
  rw [h2]
  simp only [List.drop_zero, Nat.sub_zero]
  rcases Nat.le_total e s.data.length with hle | hge
  · rw [Nat.min_eq_left hle]
  · rw [Nat.min_eq_right hge]
    rw [List.take_length, List.take_of_length_le hge]

/-- Reversal preserves length. -/
theorem reverseString_length (s : String) :
    (reverseString s).data.length = s.data.length := by
  simp [reverseString]

namespace FragmentFactory

/-- The start half of the range step only writes startOffset. -/
theorem expandRangeStepStart_shape (f : FragmentFactory) :
    ∃ v, expandRangeStepStart f = { f with startOffset := v } := by
  unfold expandRangeStepStart
  dsimp only
  split
  · split
    · split
      · exact ⟨_, rfl⟩
      · exact ⟨_, rfl⟩
    · split
      · exact ⟨_, rfl⟩
      · exact ⟨_, rfl⟩
  · exact ⟨f.startOffset, rfl⟩

/-- The end half of the range step only writes endOffset. -/
theorem expandRangeStepEnd_shape (f : FragmentFactory) :
    ∃ v, expandRangeStepEnd f = { f with endOffset := v } := by
  unfold expandRangeStepEnd setBackwardsEndOffset
  dsimp only
  split
  · split
    · split
      · exact ⟨_, rfl⟩
      · exact ⟨_, rfl⟩
    · split
      · exact ⟨_, rfl⟩
      · exact ⟨_, rfl⟩
  · exact ⟨f.endOffset, rfl⟩

/-- The prefix half of the context step only writes prefixOffset. -/
theorem expandContextStepPre_shape (f : FragmentFactory) :
    ∃ v, expandContextStepPre f = { f with prefixOffset := v } := by
  unfold expandContextStepPre setBackwardsPrefixOffset
  dsimp only
  split
  · split
    · split
      · exact ⟨f.prefixOffset, rfl⟩
      · exact ⟨_, rfl⟩
    · split
      · exact ⟨f.prefixOffset, rfl⟩
      · exact ⟨_, rfl⟩
  · exact ⟨f.prefixOffset, rfl⟩

/-- The suffix half of the context step only writes suffixOffset. -/
theorem expandContextStepSuf_shape (f : FragmentFactory) :
    ∃ v, expandContextStepSuf f = { f with suffixOffset := v } := by
  unfold expandContextStepSuf
  dsimp only
  split
  · split
    · exact ⟨_, rfl⟩
    · exact ⟨_, rfl⟩
  · exact ⟨f.suffixOffset, rfl⟩

end FragmentFactory


namespace FragmentFactory

/-- In allParts mode the start search space is the start field. -/
theorem getStartSearchSpace_allParts (f : FragmentFactory)
    (hmode : f.mode = .allParts) :
    f.getStartSearchSpace = f.startSearchSpace := by
  unfold getStartSearchSpace
  rw [hmode]
  rfl

/-- In shared mode the start search space is the shared field. -/
theorem getStartSearchSpace_shared (f : FragmentFactory)
    (hmode : f.mode = .sharedStartAndEnd) :
    f.getStartSearchSpace = f.sharedSearchSpace := by
  unfold getStartSearchSpace
  rw [hmode]
  rfl

/-- In allParts mode the end search space is the end field. -/
theorem getEndSearchSpace_allParts (f : FragmentFactory)
    (hmode : f.mode = .allParts) :
    f.getEndSearchSpace = f.endSearchSpace := by
  unfold getEndSearchSpace
  rw [hmode]
  rfl

/-- In shared mode the end search space is the shared field. -/
theorem getEndSearchSpace_shared (f : FragmentFactory)
    (hmode : f.mode = .sharedStartAndEnd) :
    f.getEndSearchSpace = f.sharedSearchSpace := by
  unfold getEndSearchSpace
  rw [hmode]
  rfl

/-- In allParts mode the backwards end search space is the backwards end
field. -/
theorem getBackwardsEndSearchSpace_allParts (f : FragmentFactory)
    (hmode : f.mode = .allParts) :
    f.getBackwardsEndSearchSpace = f.backwardsEndSearchSpace := by
  unfold getBackwardsEndSearchSpace
  rw [hmode]
  rfl

/-- In shared mode the backwards end search space is the backwards shared
field. -/
theorem getBackwardsEndSearchSpace_shared (f : FragmentFactory)
    (hmode : f.mode = .sharedStartAndEnd) :
    f.getBackwardsEndSearchSpace = f.backwardsSharedSearchSpace := by
  unfold getBackwardsEndSearchSpace
  rw [hmode]
  rfl

/-- Start-side growth in allParts mode: startOffset advances monotonically
within its search space, strictly when it was not yet exhausted. -/
theorem expandRangeStepStart_allParts (f : FragmentFactory) (so : Nat)
    (hmode : f.mode = .allParts) (hso : f.startOffset = some so)
    (hsole : so ≤ f.startSearchSpace.data.length) :
    ∃ so2, expandRangeStepStart f = { f with startOffset := some so2 } ∧
      so ≤ so2 ∧ so2 ≤ f.startSearchSpace.data.length ∧
      (so < f.startSearchSpace.data.length → so + 1 ≤ so2) := by
  have hss := getStartSearchSpace_allParts f hmode
  unfold expandRangeStepStart
  dsimp only
  rw [hso]
  simp only [Option.getD_some, hss]
  by_cases hlt : so < f.startSearchSpace.data.length
  · rw [if_pos hlt]
    have hmodeIf : ∀ v : Option Nat,
        ({ f with startOffset := v } : FragmentFactory).mode =
          FactoryMode.sharedStartAndEnd ↔ False := by
      intro v
      show f.mode = FactoryMode.sharedStartAndEnd ↔ False
      rw [hmode]
      simp
    cases hsearch : jsSearch (jsSubstring f.startSearchSpace (so + 1) none)
        isBoundaryChar with
    | none =>
      dsimp only
      rw [if_neg ((hmodeIf _).not.mpr not_false)]
      exact ⟨f.startSearchSpace.data.length, rfl, hsole, Nat.le_refl _,
        fun h => h⟩
    | some idx =>
      dsimp only
      rw [if_neg ((hmodeIf _).not.mpr not_false)]
      have hidx : idx < (jsSubstring f.startSearchSpace (so + 1) none).data.length :=
        findIdxFrom_lt _ _ _ hsearch
      rw [jsSubstring_none_data, List.length_drop] at hidx
      refine ⟨so + 1 + idx, rfl, by omega, by omega, by omega⟩
  · rw [if_neg hlt]
    refine ⟨so, ?_, Nat.le_refl _, hsole, fun h => absurd h hlt⟩
    rw [← hso]

/-- Start-side growth in shared mode: startOffset advances strictly but is
clamped to endOffset. -/
theorem expandRangeStepStart_shared (f : FragmentFactory) (so eo : Nat)
    (hmode : f.mode = .sharedStartAndEnd) (hso : f.startOffset = some so)
    (heo : f.endOffset = some eo) (hlt : so < eo)
    (heole : eo ≤ f.sharedSearchSpace.data.length) :
    ∃ so2, expandRangeStepStart f = { f with startOffset := some so2 } ∧
      so + 1 ≤ so2 ∧ so2 ≤ eo := by
  have hss := getStartSearchSpace_shared f hmode
  unfold expandRangeStepStart
  dsimp only
  rw [hso]
  simp only [Option.getD_some, hss]
  rw [if_pos (by omega)]
  have hmodeIf : ∀ v : Option Nat,
      ({ f with startOffset := v } : FragmentFactory).mode =
        FactoryMode.sharedStartAndEnd := by
    intro v
    show f.mode = FactoryMode.sharedStartAndEnd
    exact hmode
  cases hsearch : jsSearch (jsSubstring f.sharedSearchSpace (so + 1) none)
      isBoundaryChar with
  | none =>
    dsimp only
    rw [if_pos (hmodeIf _)]
    simp only [heo, Option.getD_some]
    refine ⟨min f.sharedSearchSpace.data.length eo, rfl, ?_, Nat.min_le_right _ _⟩
    exact Nat.le_min.mpr ⟨by omega, hlt⟩
  | some idx =>
    dsimp only
    rw [if_pos (hmodeIf _)]
    simp only [heo, Option.getD_some]
    refine ⟨min (so + 1 + idx) eo, rfl, ?_, Nat.min_le_right _ _⟩
    exact Nat.le_min.mpr ⟨by omega, hlt⟩

end FragmentFactory


namespace FragmentFactory

/-- End-side growth in allParts mode: endOffset recedes monotonically,
strictly when it was not yet exhausted. -/
theorem expandRangeStepEnd_allParts (f : FragmentFactory) (eo : Nat)
    (hmode : f.mode = .allParts) (heo : f.endOffset = some eo)
    (heole : eo ≤ f.endSearchSpace.data.length)
    (hbw : f.backwardsEndSearchSpace.data.length = f.endSearchSpace.data.length) :
    ∃ eo2, expandRangeStepEnd f = { f with endOffset := some eo2 } ∧
      eo2 ≤ eo ∧ eo2 ≤ f.endSearchSpace.data.length ∧
      (0 < eo → eo2 + 1 ≤ eo) := by
  have hes := getEndSearchSpace_allParts f hmode
  have hbes := getBackwardsEndSearchSpace_allParts f hmode
  have hmodeIf : ∀ v : Option Nat,
      ¬ (({ f with endOffset := v } : FragmentFactory).mode =
        FactoryMode.sharedStartAndEnd) := by
    intro v hcon
    rw [show ({ f with endOffset := v } : FragmentFactory).mode = f.mode from rfl,
      hmode] at hcon
    exact absurd hcon (by simp)
  unfold expandRangeStepEnd backwardsEndOffset setBackwardsEndOffset
  dsimp only
  rw [heo]
  simp only [Option.getD_some, hes, hbes]
  by_cases h0 : 0 < eo
  · rw [if_pos (by omega)]
    cases hsearch : jsSearch
        (jsSubstring f.backwardsEndSearchSpace
          (f.endSearchSpace.data.length - eo + 1) none) isBoundaryChar with
    | none =>
      dsimp only
      rw [if_neg (hmodeIf _)]
      exact ⟨f.endSearchSpace.data.length - f.endSearchSpace.data.length, rfl,
        by omega, by omega, by omega⟩
    | some idx =>
      dsimp only
      rw [if_neg (hmodeIf _)]
      refine ⟨f.endSearchSpace.data.length -
        (f.endSearchSpace.data.length - eo + 1 + idx), rfl, by omega, by omega,
        by omega⟩
  · rw [if_neg (by omega)]
    refine ⟨eo, ?_, Nat.le_refl _, heole, by omega⟩
    rw [← heo]

/-- End-side growth in shared mode: endOffset recedes but is clamped to
startOffset. -/
theorem expandRangeStepEnd_shared (f : FragmentFactory) (so eo : Nat)
    (hmode : f.mode = .sharedStartAndEnd) (hso : f.startOffset = some so)
    (heo : f.endOffset = some eo) (hsole : so ≤ eo)
    (heole : eo ≤ f.sharedSearchSpace.data.length)
    (hbw : f.backwardsSharedSearchSpace.data.length =
      f.sharedSearchSpace.data.length) :
    ∃ eo2, expandRangeStepEnd f = { f with endOffset := some eo2 } ∧
      so ≤ eo2 ∧ eo2 ≤ eo := by
  have hes := getEndSearchSpace_shared f hmode
  have hbes := getBackwardsEndSearchSpace_shared f hmode
  have hmodeIf : ∀ v : Option Nat,
      (({ f with endOffset := v } : FragmentFactory).mode =
        FactoryMode.sharedStartAndEnd) := by
    intro v
    show f.mode = FactoryMode.sharedStartAndEnd
    exact hmode
  unfold expandRangeStepEnd backwardsEndOffset setBackwardsEndOffset
  dsimp only
  rw [heo]
  simp only [Option.getD_some, hes, hbes]
  by_cases h0 : 0 < eo
  · rw [if_pos (by omega)]
    cases hsearch : jsSearch
        (jsSubstring f.backwardsSharedSearchSpace
          (f.sharedSearchSpace.data.length - eo + 1) none) isBoundaryChar with
    | none =>
      dsimp only
      rw [if_pos (hmodeIf _)]
      simp only [hso, Option.getD_some]
      refine ⟨max so (f.sharedSearchSpace.data.length -
        f.sharedSearchSpace.data.length), rfl, Nat.le_max_left _ _, ?_⟩
      exact Nat.max_le.mpr ⟨hsole, by omega⟩
    | some idx =>
      dsimp only
      rw [if_pos (hmodeIf _)]
      simp only [hso, Option.getD_some]
      refine ⟨max so (f.sharedSearchSpace.data.length -
        (f.sharedSearchSpace.data.length - eo + 1 + idx)), rfl,
        Nat.le_max_left _ _, ?_⟩
      exact Nat.max_le.mpr ⟨hsole, by omega⟩
  · rw [if_neg (by omega)]
    refine ⟨eo, ?_, by omega, Nat.le_refl _⟩
    rw [← heo]

/-- The prefix half of the context step is the identity when the prefix
offset is null (the setter no-ops). -/
theorem expandContextStepPre_none (f : FragmentFactory)
    (hn : f.prefixOffset = none) : expandContextStepPre f = f := by
  unfold expandContextStepPre setBackwardsPrefixOffset backwardsPrefixOffset
    getPrefixSearchSpace getBackwardsPrefixSearchSpace
  rw [hn]
  dsimp only
  split
  · split <;> rfl
  · rfl

/-- Prefix growth: the prefix offset recedes monotonically, strictly when
still positive. -/
theorem expandContextStepPre_some (f : FragmentFactory) (po : Nat)
    (hpo : f.prefixOffset = some po)
    (hpole : po ≤ f.prefixSearchSpace.data.length)
    (hbw : f.backwardsPrefixSearchSpace.data.length =
      f.prefixSearchSpace.data.length) :
    ∃ po2, expandContextStepPre f = { f with prefixOffset := some po2 } ∧
      po2 ≤ po ∧ (0 < po → po2 + 1 ≤ po) := by
  unfold expandContextStepPre setBackwardsPrefixOffset backwardsPrefixOffset
    getPrefixSearchSpace getBackwardsPrefixSearchSpace
  rw [hpo]
  simp only [Option.map_some', Option.getD_some]
  by_cases h0 : 0 < po
  · rw [if_pos (by omega)]
    cases hsearch : jsSearch
        (jsSubstring f.backwardsPrefixSearchSpace
          (f.prefixSearchSpace.data.length - po + 1) none) isBoundaryChar with
    | none =>
      dsimp only
      rw [hbw]
      exact ⟨f.prefixSearchSpace.data.length - f.prefixSearchSpace.data.length,
        rfl, by omega, by omega⟩
    | some idx =>
      dsimp only
      exact ⟨f.prefixSearchSpace.data.length -
        (f.prefixSearchSpace.data.length - po + 1 + idx), rfl, by omega,
        by omega⟩
  · rw [if_neg (by omega)]
    refine ⟨po, ?_, Nat.le_refl _, by omega⟩
    rw [← hpo]

/-- The suffix half of the context step is the identity when the suffix
search space is empty. -/
theorem expandContextStepSuf_empty (f : FragmentFactory)
    (hlen : f.suffixSearchSpace.data.length = 0) :
    expandContextStepSuf f = f := by
  unfold expandContextStepSuf getSuffixSearchSpace
  dsimp only
  rw [if_neg (by omega)]

/-- Suffix growth: the suffix offset advances monotonically within its
search space, strictly when not yet exhausted. -/
theorem expandContextStepSuf_some (f : FragmentFactory) (sufo : Nat)
    (hso : f.suffixOffset = some sufo)
    (hsole : sufo ≤ f.suffixSearchSpace.data.length) :
    ∃ so2, expandContextStepSuf f = { f with suffixOffset := some so2 } ∧
      sufo ≤ so2 ∧ so2 ≤ f.suffixSearchSpace.data.length ∧
      (sufo < f.suffixSearchSpace.data.length → sufo + 1 ≤ so2) := by
  unfold expandContextStepSuf getSuffixSearchSpace
  dsimp only
  rw [hso]
  simp only [Option.getD_some]
  by_cases hlt : sufo < f.suffixSearchSpace.data.length
  · rw [if_pos hlt]
    cases hsearch : jsSearch
        (jsSubstring f.suffixSearchSpace (sufo + 1) none) isBoundaryChar with
    | none =>
      dsimp only
      exact ⟨f.suffixSearchSpace.data.length, rfl, hsole, Nat.le_refl _,
        fun _ => hlt⟩
    | some idx =>
      dsimp only
      have hidx : idx <
          (jsSubstring f.suffixSearchSpace (sufo + 1) none).data.length :=
        findIdxFrom_lt _ _ _ hsearch
      rw [jsSubstring_none_data, List.length_drop] at hidx
      exact ⟨sufo + 1 + idx, rfl, by omega, by omega, by omega⟩
  · rw [if_neg hlt]
    refine ⟨sufo, ?_, Nat.le_refl _, hsole, fun h => absurd h hlt⟩
    rw [← hso]

end FragmentFactory


namespace FragmentFactory

/-- Whole range step in allParts mode. -/
theorem expandRangeStep_allParts (f : FragmentFactory) (so eo : Nat)
    (hmode : f.mode = .allParts) (hso : f.startOffset = some so)
    (heo : f.endOffset = some eo)
    (hsole : so ≤ f.startSearchSpace.data.length)
    (heole : eo ≤ f.endSearchSpace.data.length)
    (hbw : f.backwardsEndSearchSpace.data.length = f.endSearchSpace.data.length) :
    ∃ so2 eo2, expandRangeStep f =
        { f with startOffset := some so2, endOffset := some eo2 } ∧
      so ≤ so2 ∧ so2 ≤ f.startSearchSpace.data.length ∧
      eo2 ≤ eo ∧ eo2 ≤ f.endSearchSpace.data.length ∧
      (so < f.startSearchSpace.data.length → so + 1 ≤ so2) ∧
      (0 < eo → eo2 + 1 ≤ eo) := by
  obtain ⟨so2, hf1, h1, h2, h3⟩ := expandRangeStepStart_allParts f so hmode hso hsole
  have hmode1 : ({ f with startOffset := some so2 } : FragmentFactory).mode =
      FactoryMode.allParts := hmode
  have heo1 : ({ f with startOffset := some so2 } : FragmentFactory).endOffset =
      some eo := heo
  obtain ⟨eo2, hf2, h4, h5, h6⟩ :=
    expandRangeStepEnd_allParts { f with startOffset := some so2 } eo hmode1
      heo1 heole hbw
  refine ⟨so2, eo2, ?_, h1, h2, h4, h5, h3, h6⟩
  unfold expandRangeStep
  rw [hf1, hf2]

/-- Whole range step in shared mode. -/
theorem expandRangeStep_shared (f : FragmentFactory) (so eo : Nat)
    (hmode : f.mode = .sharedStartAndEnd) (hso : f.startOffset = some so)
    (heo : f.endOffset = some eo) (hlt : so < eo)
    (heole : eo ≤ f.sharedSearchSpace.data.length)
    (hbw : f.backwardsSharedSearchSpace.data.length =
      f.sharedSearchSpace.data.length) :
    ∃ so2 eo2, expandRangeStep f =
        { f with startOffset := some so2, endOffset := some eo2 } ∧
      so + 1 ≤ so2 ∧ so2 ≤ eo ∧ so2 ≤ eo2 ∧ eo2 ≤ eo := by
  obtain ⟨so2, hf1, h1, h2⟩ :=
    expandRangeStepStart_shared f so eo hmode hso heo hlt heole
  have hmode1 : ({ f with startOffset := some so2 } : FragmentFactory).mode =
      FactoryMode.sharedStartAndEnd := hmode
  have hso1 : ({ f with startOffset := some so2 } : FragmentFactory).startOffset =
      some so2 := rfl
  have heo1 : ({ f with startOffset := some so2 } : FragmentFactory).endOffset =
      some eo := heo
  obtain ⟨eo2, hf2, h3, h4⟩ :=
    expandRangeStepEnd_shared { f with startOffset := some so2 } so2 eo hmode1
      hso1 heo1 h2 heole hbw
  refine ⟨so2, eo2, ?_, h1, h2, h3, h4⟩
  unfold expandRangeStep
  rw [hf1, hf2]

/-- Whole context step when prefix and suffix are unconfigured. -/
theorem expandContextStep_none (f : FragmentFactory)
    (h1 : f.prefixOffset = none) (h3 : f.suffixSearchSpace.data.length = 0) :
    expandContextStep f = f := by
  unfold expandContextStep
  rw [expandContextStepPre_none f h1, expandContextStepSuf_empty f h3]

/-- Whole context step when prefix and suffix are configured. -/
theorem expandContextStep_some (f : FragmentFactory) (po sufo : Nat)
    (hpo : f.prefixOffset = some po) (hsufo : f.suffixOffset = some sufo)
    (hpole : po ≤ f.prefixSearchSpace.data.length)
    (hsole : sufo ≤ f.suffixSearchSpace.data.length)
    (hbw : f.backwardsPrefixSearchSpace.data.length =
      f.prefixSearchSpace.data.length) :
    ∃ po2 so2, expandContextStep f =
        { f with prefixOffset := some po2, suffixOffset := some so2 } ∧
      po2 ≤ po ∧ sufo ≤ so2 ∧ so2 ≤ f.suffixSearchSpace.data.length ∧
      (0 < po → po2 + 1 ≤ po) ∧
      (sufo < f.suffixSearchSpace.data.length → sufo + 1 ≤ so2) := by
  obtain ⟨po2, hf1, h1, h2⟩ := expandContextStepPre_some f po hpo hpole hbw
  have hsufo1 : ({ f with prefixOffset := some po2 } : FragmentFactory).suffixOffset
      = some sufo := hsufo
  obtain ⟨so2, hf2, h3, h4, h5⟩ :=
    expandContextStepSuf_some { f with prefixOffset := some po2 } sufo hsufo1
      hsole
  refine ⟨po2, so2, ?_, h1, h3, h4, h2, h5⟩
  unfold expandContextStep
  rw [hf1, hf2]

/-- An embiggen call returns false exactly when neither the range
candidates nor the context can grow further. -/
theorem embiggen_false_iff (f : FragmentFactory) :
    (f.embiggen).1 = false ↔
      (f.rangeGrowable = false ∧ f.contextGrowable = false) := by
  unfold embiggen
  dsimp only
  cases hr : f.rangeGrowable with
  | true => simp [hr]
  | false => simp [hr]

/-- Once embiggen returns false it keeps returning false. -/
theorem embiggen_false_absorbing (f : FragmentFactory)
    (h : (f.embiggen).1 = false) : ((f.embiggen).2.embiggen).1 = false := by
  obtain ⟨hr, hc⟩ := (embiggen_false_iff f).mp h
  have hstate : (f.embiggen).2 =
      { f with numIterations := f.numIterations + 1 } := by
    unfold embiggen
    dsimp only
    rw [hr, hc]
    simp
  rw [hstate]
  apply (embiggen_false_iff _).mpr
  constructor
  · show rangeGrowable { f with numIterations := f.numIterations + 1 } = false
    exact hr
  · show contextGrowable { f with numIterations := f.numIterations + 1 } = false
    exact hc

end FragmentFactory


namespace FragmentFactory

/-- Destructor for the well-formedness conjunction. -/
theorem WF_parts (f : FragmentFactory) (hwf : f.WF = true) :
    (f.backwardsEndSearchSpace == reverseString f.endSearchSpace) = true ∧
    (f.backwardsSharedSearchSpace == reverseString f.sharedSearchSpace) = true ∧
    (f.backwardsPrefixSearchSpace == reverseString f.prefixSearchSpace) = true ∧
    ((match f.mode with
      | FactoryMode.allParts =>
        f.startOffset.isSome && f.endOffset.isSome &&
          f.startOffset.getD 0 ≤ f.startSearchSpace.data.length &&
          f.endOffset.getD 0 ≤ f.endSearchSpace.data.length
      | FactoryMode.sharedStartAndEnd =>
        f.startOffset.isSome && f.endOffset.isSome &&
          f.startOffset.getD 0 ≤ f.endOffset.getD 0 &&
          f.endOffset.getD 0 ≤ f.sharedSearchSpace.data.length
      | FactoryMode.contextOnly =>
        f.startOffset.isNone && f.endOffset.isNone) : Bool) = true ∧
    ((f.prefixOffset.isNone && f.suffixOffset.isNone &&
        f.prefixSearchSpace == "" && f.suffixSearchSpace == "") ||
     (f.prefixOffset.isSome && f.suffixOffset.isSome &&
        f.prefixOffset.getD 0 ≤ f.prefixSearchSpace.data.length &&
        f.suffixOffset.getD 0 ≤ f.suffixSearchSpace.data.length)) = true := by
  unfold WF at hwf
  simp only [Bool.and_eq_true] at hwf
  exact ⟨hwf.1.1.1.1, hwf.1.1.1.2, hwf.1.1.2, hwf.1.2, hwf.2⟩

/-- Constructor for the well-formedness conjunction. -/
theorem WF_intro (f : FragmentFactory)
    (h1 : (f.backwardsEndSearchSpace == reverseString f.endSearchSpace) = true)
    (h2 : (f.backwardsSharedSearchSpace == reverseString f.sharedSearchSpace) = true)
    (h3 : (f.backwardsPrefixSearchSpace == reverseString f.prefixSearchSpace) = true)
    (h4 : ((match f.mode with
      | FactoryMode.allParts =>
        f.startOffset.isSome && f.endOffset.isSome &&
          f.startOffset.getD 0 ≤ f.startSearchSpace.data.length &&
          f.endOffset.getD 0 ≤ f.endSearchSpace.data.length
      | FactoryMode.sharedStartAndEnd =>
        f.startOffset.isSome && f.endOffset.isSome &&
          f.startOffset.getD 0 ≤ f.endOffset.getD 0 &&
          f.endOffset.getD 0 ≤ f.sharedSearchSpace.data.length
      | FactoryMode.contextOnly =>
        f.startOffset.isNone && f.endOffset.isNone) : Bool) = true)
    (h5 : ((f.prefixOffset.isNone && f.suffixOffset.isNone &&
        f.prefixSearchSpace == "" && f.suffixSearchSpace == "") ||
     (f.prefixOffset.isSome && f.suffixOffset.isSome &&
        f.prefixOffset.getD 0 ≤ f.prefixSearchSpace.data.length &&
        f.suffixOffset.getD 0 ≤ f.suffixSearchSpace.data.length)) = true) :
    f.WF = true := by
  unfold WF
  simp only [Bool.and_eq_true]
  exact ⟨⟨⟨⟨h1, h2⟩, h3⟩, h4⟩, h5⟩

/-- In allParts mode well-formedness yields both offsets and their bounds. -/
theorem WF_allParts (f : FragmentFactory) (hm : f.mode = .allParts)
    (hwf : f.WF = true) :
    ∃ so eo, f.startOffset = some so ∧ f.endOffset = some eo ∧
      so ≤ f.startSearchSpace.data.length ∧
      eo ≤ f.endSearchSpace.data.length ∧
      f.backwardsEndSearchSpace.data.length = f.endSearchSpace.data.length := by
  obtain ⟨h1, _, _, h4, _⟩ := WF_parts f hwf
  rw [hm] at h4
  simp only [Bool.and_eq_true, Option.isSome_iff_exists, decide_eq_true_eq] at h4
  obtain ⟨⟨⟨⟨so, hso⟩, ⟨eo, heo⟩⟩, hb1⟩, hb2⟩ := h4
  rw [hso] at hb1
  rw [heo] at hb2
  refine ⟨so, eo, hso, heo, by simpa using hb1, by simpa using hb2, ?_⟩
  rw [beq_iff_eq] at h1
  rw [h1, reverseString_length]

/-- In shared mode well-formedness yields both offsets and their bounds. -/
theorem WF_shared (f : FragmentFactory) (hm : f.mode = .sharedStartAndEnd)
    (hwf : f.WF = true) :
    ∃ so eo, f.startOffset = some so ∧ f.endOffset = some eo ∧
      so ≤ eo ∧ eo ≤ f.sharedSearchSpace.data.length ∧
      f.backwardsSharedSearchSpace.data.length =
        f.sharedSearchSpace.data.length := by
  obtain ⟨_, h2, _, h4, _⟩ := WF_parts f hwf
  rw [hm] at h4
  simp only [Bool.and_eq_true, Option.isSome_iff_exists, decide_eq_true_eq] at h4
  obtain ⟨⟨⟨⟨so, hso⟩, ⟨eo, heo⟩⟩, hb1⟩, hb2⟩ := h4
  rw [hso] at hb1
  rw [heo] at hb1 hb2
  refine ⟨so, eo, hso, heo, by simpa using hb1, by simpa using hb2, ?_⟩
  rw [beq_iff_eq] at h2
  rw [h2, reverseString_length]

/-- In contextOnly mode well-formedness keeps both offsets null. -/
theorem WF_contextOnly (f : FragmentFactory) (hm : f.mode = .contextOnly)
    (hwf : f.WF = true) :
    f.startOffset = none ∧ f.endOffset = none := by
  obtain ⟨_, _, _, h4, _⟩ := WF_parts f hwf
  rw [hm] at h4
  simp only [Bool.and_eq_true, Option.isNone_iff_eq_none] at h4
  exact h4

/-- Well-formedness for the context configuration: unconfigured with empty
spaces, or configured with bounded offsets. -/
theorem WF_ctx (f : FragmentFactory) (hwf : f.WF = true) :
    (f.prefixOffset = none ∧ f.suffixOffset = none ∧
      f.prefixSearchSpace.data.length = 0 ∧
      f.suffixSearchSpace.data.length = 0) ∨
    (∃ po sufo, f.prefixOffset = some po ∧ f.suffixOffset = some sufo ∧
      po ≤ f.prefixSearchSpace.data.length ∧
      sufo ≤ f.suffixSearchSpace.data.length ∧
      f.backwardsPrefixSearchSpace.data.length =
        f.prefixSearchSpace.data.length) := by
  obtain ⟨_, _, h3, _, h5⟩ := WF_parts f hwf
  have hbw : f.backwardsPrefixSearchSpace.data.length =
      f.prefixSearchSpace.data.length := by
    rw [beq_iff_eq] at h3
    rw [h3, reverseString_length]
  simp only [Bool.or_eq_true, Bool.and_eq_true, Option.isNone_iff_eq_none,
    Option.isSome_iff_exists, beq_iff_eq, decide_eq_true_eq] at h5
  rcases h5 with ⟨⟨⟨hp, hs⟩, hps⟩, hss⟩ | ⟨⟨⟨⟨po, hpo⟩, ⟨sufo, hsufo⟩⟩, hb1⟩, hb2⟩
  · left
    exact ⟨hp, hs, by rw [hps]; rfl, by rw [hss]; rfl⟩
  · right
    rw [hpo] at hb1
    rw [hsufo] at hb2
    exact ⟨po, sufo, hpo, hsufo, by simpa using hb1, by simpa using hb2, hbw⟩

/-- Characterization of range growth in allParts mode. -/
theorem rangeGrowable_allParts_iff (f : FragmentFactory) (so eo : Nat)
    (hm : f.mode = .allParts) (hso : f.startOffset = some so)
    (heo : f.endOffset = some eo)
    (hsole : so ≤ f.startSearchSpace.data.length)
    (heole : eo ≤ f.endSearchSpace.data.length) :
    f.rangeGrowable = true ↔
      (so < f.startSearchSpace.data.length ∨ 0 < eo) := by
  unfold rangeGrowable backwardsEndOffset
  rw [hm]
  dsimp only
  rw [getStartSearchSpace_allParts f hm, getEndSearchSpace_allParts f hm, hso,
    heo]
  simp only [Option.getD_some, Bool.not_eq_true', Bool.and_eq_false_iff,
    beq_eq_false_iff_ne, ne_eq]
  omega

/-- Characterization of range growth in shared mode. -/
theorem rangeGrowable_shared_iff (f : FragmentFactory) (so eo : Nat)
    (hm : f.mode = .sharedStartAndEnd) (hso : f.startOffset = some so)
    (heo : f.endOffset = some eo) :
    f.rangeGrowable = true ↔ so < eo := by
  unfold rangeGrowable
  rw [hm]
  dsimp only
  rw [hso, heo]
  simp only [Option.getD_some, Bool.not_eq_true', decide_eq_false_iff_not,
    not_le]

/-- In contextOnly mode the range is never growable. -/
theorem rangeGrowable_contextOnly (f : FragmentFactory)
    (hm : f.mode = .contextOnly) : f.rangeGrowable = false := by
  unfold rangeGrowable
  rw [hm]

/-- Unconfigured context is never growable. -/
theorem contextGrowable_none (f : FragmentFactory)
    (h1 : f.prefixOffset = none) (h2 : f.suffixOffset = none) :
    f.contextGrowable = false := by
  unfold contextGrowable backwardsPrefixOffset
  rw [h1, h2]
  rfl

/-- Characterization of context growth for configured context. -/
theorem contextGrowable_some_iff (f : FragmentFactory) (po sufo : Nat)
    (hpo : f.prefixOffset = some po) (hsufo : f.suffixOffset = some sufo)
    (hpole : po ≤ f.prefixSearchSpace.data.length)
    (hsole : sufo ≤ f.suffixSearchSpace.data.length) :
    f.contextGrowable = true ↔
      (0 < po ∨ sufo < f.suffixSearchSpace.data.length) := by
  unfold contextGrowable backwardsPrefixOffset getPrefixSearchSpace
    getSuffixSearchSpace
  rw [hpo, hsufo]
  simp only [Option.map_some', Option.getD_some, Bool.or_eq_true,
    Bool.not_eq_true', beq_eq_false_iff_ne, ne_eq]
  omega

end FragmentFactory



namespace FragmentFactory

/-- The context configuration invariant at the Prop level. -/
def CtxOK (g : FragmentFactory) : Prop :=
  (g.prefixOffset = none ∧ g.suffixOffset = none ∧
    g.prefixSearchSpace = "" ∧ g.suffixSearchSpace = "") ∨
  (∃ po sufo, g.prefixOffset = some po ∧ g.suffixOffset = some sufo ∧
    po ≤ g.prefixSearchSpace.data.length ∧
    sufo ≤ g.suffixSearchSpace.data.length)

/-- The context invariant from well-formedness (Prop level). -/
theorem CtxOK_of_WF (f : FragmentFactory) (hwf : f.WF = true) : CtxOK f := by
  rcases WF_ctx f hwf with ⟨h1, h2, h3, h4⟩ | ⟨po, sufo, h1, h2, h3, h4, _⟩
  · left
    refine ⟨h1, h2, ?_, ?_⟩
    · cases hps : f.prefixSearchSpace with
      | mk l => rw [hps] at h3; simp at h3; simp [h3]
    · cases hss : f.suffixSearchSpace with
      | mk l => rw [hss] at h4; simp at h4; simp [h4]
  · right
    exact ⟨po, sufo, h1, h2, h3, h4⟩

/-- Well-formedness introduction for allParts states. -/
theorem WF_intro_allParts (g : FragmentFactory) (hm : g.mode = .allParts)
    (hA : (g.backwardsEndSearchSpace == reverseString g.endSearchSpace) = true)
    (hB : (g.backwardsSharedSearchSpace ==
      reverseString g.sharedSearchSpace) = true)
    (hC : (g.backwardsPrefixSearchSpace ==
      reverseString g.prefixSearchSpace) = true)
    (so eo : Nat) (hso : g.startOffset = some so) (heo : g.endOffset = some eo)
    (h1 : so ≤ g.startSearchSpace.data.length)
    (h2 : eo ≤ g.endSearchSpace.data.length)
    (hctx : CtxOK g) : g.WF = true := by
  refine WF_intro g hA hB hC ?_ ?_
  · rw [hm, hso, heo]
    simp only [Option.isSome_some, Option.getD_some, Bool.and_eq_true,
      decide_eq_true_eq]
    exact ⟨⟨⟨trivial, trivial⟩, h1⟩, h2⟩
  · rcases hctx with ⟨k1, k2, k3, k4⟩ | ⟨po, sufo, k1, k2, k3, k4⟩
    · rw [k1, k2, k3, k4]
      rfl
    · rw [k1, k2]
      simp only [Option.isSome_some, Option.getD_some, Bool.and_eq_true,
        Bool.or_eq_true, decide_eq_true_eq]
      right
      exact ⟨⟨⟨trivial, trivial⟩, k3⟩, k4⟩

/-- Well-formedness introduction for shared states. -/
theorem WF_intro_shared (g : FragmentFactory)
    (hm : g.mode = .sharedStartAndEnd)
    (hA : (g.backwardsEndSearchSpace == reverseString g.endSearchSpace) = true)
    (hB : (g.backwardsSharedSearchSpace ==
      reverseString g.sharedSearchSpace) = true)
    (hC : (g.backwardsPrefixSearchSpace ==
      reverseString g.prefixSearchSpace) = true)
    (so eo : Nat) (hso : g.startOffset = some so) (heo : g.endOffset = some eo)
    (h1 : so ≤ eo) (h2 : eo ≤ g.sharedSearchSpace.data.length)
    (hctx : CtxOK g) : g.WF = true := by
  refine WF_intro g hA hB hC ?_ ?_
  · rw [hm, hso, heo]
    simp only [Option.isSome_some, Option.getD_some, Bool.and_eq_true,
      decide_eq_true_eq]
    exact ⟨⟨⟨trivial, trivial⟩, h1⟩, h2⟩
  · rcases hctx with ⟨k1, k2, k3, k4⟩ | ⟨po, sufo, k1, k2, k3, k4⟩
    · rw [k1, k2, k3, k4]
      rfl
    · rw [k1, k2]
      simp only [Option.isSome_some, Option.getD_some, Bool.and_eq_true,
        Bool.or_eq_true, decide_eq_true_eq]
      right
      exact ⟨⟨⟨trivial, trivial⟩, k3⟩, k4⟩

/-- Well-formedness introduction for contextOnly states. -/
theorem WF_intro_contextOnly (g : FragmentFactory)
    (hm : g.mode = .contextOnly)
    (hA : (g.backwardsEndSearchSpace == reverseString g.endSearchSpace) = true)
    (hB : (g.backwardsSharedSearchSpace ==
      reverseString g.sharedSearchSpace) = true)
    (hC : (g.backwardsPrefixSearchSpace ==
      reverseString g.prefixSearchSpace) = true)
    (hso : g.startOffset = none) (heo : g.endOffset = none)
    (hctx : CtxOK g) : g.WF = true := by
  refine WF_intro g hA hB hC ?_ ?_
  · rw [hm, hso, heo]
    rfl
  · rcases hctx with ⟨k1, k2, k3, k4⟩ | ⟨po, sufo, k1, k2, k3, k4⟩
    · rw [k1, k2, k3, k4]
      rfl
    · rw [k1, k2]
      simp only [Option.isSome_some, Option.getD_some, Bool.and_eq_true,
        Bool.or_eq_true, decide_eq_true_eq]
      right
      exact ⟨⟨⟨trivial, trivial⟩, k3⟩, k4⟩

end FragmentFactory


namespace FragmentFactory

/-- One embiggen call in allParts mode: well-formedness is preserved, the
measure strictly drops whenever the call returns true, and the candidate
offsets move monotonically (startOffset never decreases, endOffset never
increases). -/
theorem embiggen_step_allParts (f : FragmentFactory)
    (hm : f.mode = .allParts) (hwf : f.WF = true) :
    (f.embiggen).2.WF = true ∧
      ((f.embiggen).1 = true → measureFn (f.embiggen).2 < measureFn f) ∧
      (∀ a, f.startOffset = some a →
        ∃ a2, (f.embiggen).2.startOffset = some a2 ∧ a ≤ a2) ∧
      (∀ b, f.endOffset = some b →
        ∃ b2, (f.embiggen).2.endOffset = some b2 ∧ b2 ≤ b) := by
  obtain ⟨so, eo, hso, heo, hsole, heole, hbwlen⟩ := WF_allParts f hm hwf
  obtain ⟨hA, hB, hC, hD, hE⟩ := WF_parts f hwf
  have hmf : measureFn f =
      (f.startSearchSpace.data.length - so) + eo +
        (f.prefixOffset.getD 0 +
          (f.suffixSearchSpace.data.length - f.suffixOffset.getD 0)) := by
    unfold measureFn
    rw [hm, hso, heo]
    rfl
  by_cases hr : f.rangeGrowable = true
  · have hdisj : so < f.startSearchSpace.data.length ∨ 0 < eo :=
      (rangeGrowable_allParts_iff f so eo hm hso heo hsole heole).mp hr
    obtain ⟨so2, eo2, hstep, k1, k2, k3, k4, k5, k6⟩ :=
      expandRangeStep_allParts f so eo hm hso heo hsole heole hbwlen
    have hbool : (f.embiggen).1 = true := by
      unfold embiggen
      dsimp only
      rw [hr]
      simp
    by_cases hc : (if (!f.rangeGrowable ||
        decide (f.numIterations ≥ ITERATIONS_BEFORE_ADDING_CONTEXT))
        then f.contextGrowable else false) = true
    · have hgate : (!f.rangeGrowable ||
          decide (f.numIterations ≥ ITERATIONS_BEFORE_ADDING_CONTEXT)) = true := by
        by_cases hgate : (!f.rangeGrowable ||
            decide (f.numIterations ≥ ITERATIONS_BEFORE_ADDING_CONTEXT)) = true
        · exact hgate
        · rw [if_neg hgate] at hc
          exact absurd hc Bool.false_ne_true
      have hcg : f.contextGrowable = true := by
        rwa [if_pos hgate] at hc
      rcases WF_ctx f hwf with ⟨hp, hs, _, _⟩ |
        ⟨po, sufo, hpo, hsufo, hpole, hsole2, hbwp⟩
      · rw [contextGrowable_none f hp hs] at hcg
        exact absurd hcg Bool.false_ne_true
      · obtain ⟨po2, sufo2, hcstep, c1, c2, c3, c4, c5⟩ :=
          expandContextStep_some
            { f with startOffset := some so2, endOffset := some eo2 }
            po sufo hpo hsufo hpole hsole2 hbwp
        have hstate : (f.embiggen).2 =
            { f with
              startOffset := some so2
              endOffset := some eo2
              prefixOffset := some po2
              suffixOffset := some sufo2
              numIterations := f.numIterations + 1 } := by
          unfold embiggen
          dsimp only
          rw [hc, hr]
          rw [if_pos rfl, if_pos rfl]
          rw [hstep, hcstep]
        refine ⟨?_, ?_, ?_, ?_⟩
        · rw [hstate]
          refine WF_intro_allParts _ hm hA hB hC so2 eo2 rfl rfl k2 k4 ?_
          right
          exact ⟨po2, sufo2, rfl, rfl, Nat.le_trans c1 hpole, c3⟩
        · intro _
          rw [hstate, hmf]
          unfold measureFn
          dsimp only
          rw [hm]
          simp only [Option.getD_some]
          rw [hpo, hsufo]
          simp only [Option.getD_some]
          omega
        · intro a ha
          rw [hso] at ha
          obtain rfl := Option.some.inj ha
          rw [hstate]
          exact ⟨so2, rfl, k1⟩
        · intro b hb
          rw [heo] at hb
          obtain rfl := Option.some.inj hb
          rw [hstate]
          exact ⟨eo2, rfl, k3⟩
    · have hcFalse : (if (!f.rangeGrowable ||
          decide (f.numIterations ≥ ITERATIONS_BEFORE_ADDING_CONTEXT))
          then f.contextGrowable else false) = false :=
        Bool.eq_false_iff.mpr hc
      have hstate : (f.embiggen).2 =
          { f with
            startOffset := some so2
            endOffset := some eo2
            numIterations := f.numIterations + 1 } := by
        unfold embiggen
        dsimp only
        rw [hcFalse, hr]
        rw [if_pos rfl, if_neg Bool.false_ne_true]
        rw [hstep]
      refine ⟨?_, ?_, ?_, ?_⟩
      · rw [hstate]
        refine WF_intro_allParts _ hm hA hB hC so2 eo2 rfl rfl k2 k4 ?_
        exact CtxOK_of_WF f hwf
      · intro _
        rw [hstate, hmf]
        unfold measureFn
        dsimp only
        rw [hm]
        simp only [Option.getD_some]
        omega
      · intro a ha
        rw [hso] at ha
        obtain rfl := Option.some.inj ha
        rw [hstate]
        exact ⟨so2, rfl, k1⟩
      · intro b hb
        rw [heo] at hb
        obtain rfl := Option.some.inj hb
        rw [hstate]
        exact ⟨eo2, rfl, k3⟩
  · have hrFalse : f.rangeGrowable = false := Bool.eq_false_iff.mpr hr
    by_cases hcg : f.contextGrowable = true
    · rcases WF_ctx f hwf with ⟨hp, hs, _, _⟩ |
        ⟨po, sufo, hpo, hsufo, hpole, hsole2, hbwp⟩
      · rw [contextGrowable_none f hp hs] at hcg
        exact absurd hcg Bool.false_ne_true
      · obtain ⟨po2, sufo2, hcstep, c1, c2, c3, c4, c5⟩ :=
          expandContextStep_some f po sufo hpo hsufo hpole hsole2 hbwp
        have hstrict : 0 < po ∨ sufo < f.suffixSearchSpace.data.length :=
          (contextGrowable_some_iff f po sufo hpo hsufo hpole hsole2).mp hcg
        have hgatet : (!f.rangeGrowable ||
            decide (f.numIterations ≥ ITERATIONS_BEFORE_ADDING_CONTEXT)) = true := by
          rw [hrFalse]
          simp
        have hcec : (if (!f.rangeGrowable ||
            decide (f.numIterations ≥ ITERATIONS_BEFORE_ADDING_CONTEXT))
            then f.contextGrowable else false) = true := by
          rw [if_pos hgatet]
          exact hcg
        have hstate : (f.embiggen).2 =
            { f with
              prefixOffset := some po2
              suffixOffset := some sufo2
              numIterations := f.numIterations + 1 } := by
          unfold embiggen
          dsimp only
          rw [hcec, hrFalse]
          rw [if_pos rfl, if_neg Bool.false_ne_true]
          rw [hcstep]
        refine ⟨?_, ?_, ?_, ?_⟩
        · rw [hstate]
          refine WF_intro_allParts _ hm hA hB hC so eo hso heo hsole heole ?_
          right
          exact ⟨po2, sufo2, rfl, rfl, Nat.le_trans c1 hpole, c3⟩
        · intro _
          rw [hstate, hmf]
          unfold measureFn
          dsimp only
          rw [hm, hso, heo, hpo, hsufo]
          simp only [Option.getD_some]
          omega
        · intro a ha
          rw [hso] at ha
          obtain rfl := Option.some.inj ha
          rw [hstate]
          exact ⟨so, hso, Nat.le_refl _⟩
        · intro b hb
          rw [heo] at hb
          obtain rfl := Option.some.inj hb
          rw [hstate]
          exact ⟨eo, heo, Nat.le_refl _⟩
    · have hcgFalse : f.contextGrowable = false := Bool.eq_false_iff.mpr hcg
      have hbool : (f.embiggen).1 = false :=
        (embiggen_false_iff f).mpr ⟨hrFalse, hcgFalse⟩
      have hstate : (f.embiggen).2 =
          { f with numIterations := f.numIterations + 1 } := by
        unfold embiggen
        dsimp only
        rw [hrFalse, hcgFalse]
        simp
      refine ⟨?_, ?_, ?_, ?_⟩
      · rw [hstate]
        exact hwf
      · intro h
        rw [hbool] at h
        exact absurd h Bool.false_ne_true
      · intro a ha
        rw [hstate]
        exact ⟨a, ha, Nat.le_refl _⟩
      · intro b hb
        rw [hstate]
        exact ⟨b, hb, Nat.le_refl _⟩

end FragmentFactory


namespace FragmentFactory

/-- One embiggen call in shared mode: well-formedness is preserved, the
measure strictly drops whenever the call returns true, and the candidate
offsets move monotonically without crossing. -/
theorem embiggen_step_shared (f : FragmentFactory)
    (hm : f.mode = .sharedStartAndEnd) (hwf : f.WF = true) :
    (f.embiggen).2.WF = true ∧
      ((f.embiggen).1 = true → measureFn (f.embiggen).2 < measureFn f) ∧
      (∀ a, f.startOffset = some a →
        ∃ a2, (f.embiggen).2.startOffset = some a2 ∧ a ≤ a2) ∧
      (∀ b, f.endOffset = some b →
        ∃ b2, (f.embiggen).2.endOffset = some b2 ∧ b2 ≤ b) := by
  obtain ⟨so, eo, hso, heo, hsole, heole, hbwlen⟩ := WF_shared f hm hwf
  obtain ⟨hA, hB, hC, hD, hE⟩ := WF_parts f hwf
  have hmf : measureFn f =
      (eo - so) +
        (f.prefixOffset.getD 0 +
          (f.suffixSearchSpace.data.length - f.suffixOffset.getD 0)) := by
    unfold measureFn
    rw [hm, hso, heo]
    rfl
  by_cases hr : f.rangeGrowable = true
  · have hlt : so < eo := (rangeGrowable_shared_iff f so eo hm hso heo).mp hr
    obtain ⟨so2, eo2, hstep, k1, k2, k3, k4⟩ :=
      expandRangeStep_shared f so eo hm hso heo hlt heole hbwlen
    have hbool : (f.embiggen).1 = true := by
      unfold embiggen
      dsimp only
      rw [hr]
      simp
    by_cases hc : (if (!f.rangeGrowable ||
        decide (f.numIterations ≥ ITERATIONS_BEFORE_ADDING_CONTEXT))
        then f.contextGrowable else false) = true
    · have hgate : (!f.rangeGrowable ||
          decide (f.numIterations ≥ ITERATIONS_BEFORE_ADDING_CONTEXT)) = true := by
        by_cases hgate : (!f.rangeGrowable ||
            decide (f.numIterations ≥ ITERATIONS_BEFORE_ADDING_CONTEXT)) = true
        · exact hgate
        · rw [if_neg hgate] at hc
          exact absurd hc Bool.false_ne_true
      have hcg : f.contextGrowable = true := by
        rwa [if_pos hgate] at hc
      rcases WF_ctx f hwf with ⟨hp, hs, _, _⟩ |
        ⟨po, sufo, hpo, hsufo, hpole, hsole2, hbwp⟩
      · rw [contextGrowable_none f hp hs] at hcg
        exact absurd hcg Bool.false_ne_true
      · obtain ⟨po2, sufo2, hcstep, c1, c2, c3, c4, c5⟩ :=
          expandContextStep_some
            { f with startOffset := some so2, endOffset := some eo2 }
            po sufo hpo hsufo hpole hsole2 hbwp
        have hstate : (f.embiggen).2 =
            { f with
              startOffset := some so2
              endOffset := some eo2
              prefixOffset := some po2
              suffixOffset := some sufo2
              numIterations := f.numIterations + 1 } := by
          unfold embiggen
          dsimp only
          rw [hc, hr]
          rw [if_pos rfl, if_pos rfl]
          rw [hstep, hcstep]
        refine ⟨?_, ?_, ?_, ?_⟩
        · rw [hstate]
          refine WF_intro_shared _ hm hA hB hC so2 eo2 rfl rfl k3
            (Nat.le_trans k4 heole) ?_
          right
          exact ⟨po2, sufo2, rfl, rfl, Nat.le_trans c1 hpole, c3⟩
        · intro _
          rw [hstate, hmf]
          unfold measureFn
          dsimp only
          rw [hm]
          simp only [Option.getD_some]
          rw [hpo, hsufo]
          simp only [Option.getD_some]
          omega
        · intro a ha
          rw [hso] at ha
          obtain rfl := Option.some.inj ha
          rw [hstate]
          exact ⟨so2, rfl, by omega⟩
        · intro b hb
          rw [heo] at hb
          obtain rfl := Option.some.inj hb
          rw [hstate]
          exact ⟨eo2, rfl, k4⟩
    · have hcFalse : (if (!f.rangeGrowable ||
          decide (f.numIterations ≥ ITERATIONS_BEFORE_ADDING_CONTEXT))
          then f.contextGrowable else false) = false :=
        Bool.eq_false_iff.mpr hc
      have hstate : (f.embiggen).2 =
          { f with
            startOffset := some so2
            endOffset := some eo2
            numIterations := f.numIterations + 1 } := by
        unfold embiggen
        dsimp only
        rw [hcFalse, hr]
        rw [if_pos rfl, if_neg Bool.false_ne_true]
        rw [hstep]
      refine ⟨?_, ?_, ?_, ?_⟩
      · rw [hstate]
        refine WF_intro_shared _ hm hA hB hC so2 eo2 rfl rfl k3
          (Nat.le_trans k4 heole) ?_
        exact CtxOK_of_WF f hwf
      · intro _
        rw [hstate, hmf]
        unfold measureFn
        dsimp only
        rw [hm]
        simp only [Option.getD_some]
        omega
      · intro a ha
        rw [hso] at ha
        obtain rfl := Option.some.inj ha
        rw [hstate]
        exact ⟨so2, rfl, by omega⟩
      · intro b hb
        rw [heo] at hb
        obtain rfl := Option.some.inj hb
        rw [hstate]
        exact ⟨eo2, rfl, k4⟩
  · have hrFalse : f.rangeGrowable = false := Bool.eq_false_iff.mpr hr
    by_cases hcg : f.contextGrowable = true
    · rcases WF_ctx f hwf with ⟨hp, hs, _, _⟩ |
        ⟨po, sufo, hpo, hsufo, hpole, hsole2, hbwp⟩
      · rw [contextGrowable_none f hp hs] at hcg
        exact absurd hcg Bool.false_ne_true
      · obtain ⟨po2, sufo2, hcstep, c1, c2, c3, c4, c5⟩ :=
          expandContextStep_some f po sufo hpo hsufo hpole hsole2 hbwp
        have hstrict : 0 < po ∨ sufo < f.suffixSearchSpace.data.length :=
          (contextGrowable_some_iff f po sufo hpo hsufo hpole hsole2).mp hcg
        have hgatet : (!f.rangeGrowable ||
            decide (f.numIterations ≥ ITERATIONS_BEFORE_ADDING_CONTEXT)) = true := by
          rw [hrFalse]
          simp
        have hcec : (if (!f.rangeGrowable ||
            decide (f.numIterations ≥ ITERATIONS_BEFORE_ADDING_CONTEXT))
            then f.contextGrowable else false) = true := by
          rw [if_pos hgatet]
          exact hcg
        have hstate : (f.embiggen).2 =
            { f with
              prefixOffset := some po2
              suffixOffset := some sufo2
              numIterations := f.numIterations + 1 } := by
          unfold embiggen
          dsimp only
          rw [hcec, hrFalse]
          rw [if_pos rfl, if_neg Bool.false_ne_true]
          rw [hcstep]
        refine ⟨?_, ?_, ?_, ?_⟩
        · rw [hstate]
          refine WF_intro_shared _ hm hA hB hC so eo hso heo hsole heole ?_
          right
          exact ⟨po2, sufo2, rfl, rfl, Nat.le_trans c1 hpole, c3⟩
        · intro _
          rw [hstate, hmf]
          unfold measureFn
          dsimp only
          rw [hm, hso, heo, hpo, hsufo]
          simp only [Option.getD_some]
          omega
        · intro a ha
          rw [hso] at ha
          obtain rfl := Option.some.inj ha
          rw [hstate]
          exact ⟨so, hso, Nat.le_refl _⟩
        · intro b hb
          rw [heo] at hb
          obtain rfl := Option.some.inj hb
          rw [hstate]
          exact ⟨eo, heo, Nat.le_refl _⟩
    · have hcgFalse : f.contextGrowable = false := Bool.eq_false_iff.mpr hcg
      have hbool : (f.embiggen).1 = false :=
        (embiggen_false_iff f).mpr ⟨hrFalse, hcgFalse⟩
      have hstate : (f.embiggen).2 =
          { f with numIterations := f.numIterations + 1 } := by
        unfold embiggen
        dsimp only
        rw [hrFalse, hcgFalse]
        simp
      refine ⟨?_, ?_, ?_, ?_⟩
      · rw [hstate]
        exact hwf
      · intro h
        rw [hbool] at h
        exact absurd h Bool.false_ne_true
      · intro a ha
        rw [hstate]
        exact ⟨a, ha, Nat.le_refl _⟩
      · intro b hb
        rw [hstate]
        exact ⟨b, hb, Nat.le_refl _⟩

/-- One embiggen call in contextOnly mode: well-formedness is preserved and
the measure strictly drops whenever the call returns true. -/
theorem embiggen_step_contextOnly (f : FragmentFactory)
    (hm : f.mode = .contextOnly) (hwf : f.WF = true) :
    (f.embiggen).2.WF = true ∧
      ((f.embiggen).1 = true → measureFn (f.embiggen).2 < measureFn f) ∧
      (∀ a, f.startOffset = some a →
        ∃ a2, (f.embiggen).2.startOffset = some a2 ∧ a ≤ a2) ∧
      (∀ b, f.endOffset = some b →
        ∃ b2, (f.embiggen).2.endOffset = some b2 ∧ b2 ≤ b) := by
  obtain ⟨hsoN, heoN⟩ := WF_contextOnly f hm hwf
  obtain ⟨hA, hB, hC, hD, hE⟩ := WF_parts f hwf
  have hrFalse : f.rangeGrowable = false := rangeGrowable_contextOnly f hm
  have hmf : measureFn f =
      f.prefixOffset.getD 0 +
        (f.suffixSearchSpace.data.length - f.suffixOffset.getD 0) := by
    unfold measureFn
    rw [hm]
    simp
  by_cases hcg : f.contextGrowable = true
  · rcases WF_ctx f hwf with ⟨hp, hs, _, _⟩ |
      ⟨po, sufo, hpo, hsufo, hpole, hsole2, hbwp⟩
    · rw [contextGrowable_none f hp hs] at hcg
      exact absurd hcg Bool.false_ne_true
    · obtain ⟨po2, sufo2, hcstep, c1, c2, c3, c4, c5⟩ :=
        expandContextStep_some f po sufo hpo hsufo hpole hsole2 hbwp
      have hstrict : 0 < po ∨ sufo < f.suffixSearchSpace.data.length :=
        (contextGrowable_some_iff f po sufo hpo hsufo hpole hsole2).mp hcg
      have hgatet : (!f.rangeGrowable ||
          decide (f.numIterations ≥ ITERATIONS_BEFORE_ADDING_CONTEXT)) = true := by
        rw [hrFalse]
        simp
      have hcec : (if (!f.rangeGrowable ||
          decide (f.numIterations ≥ ITERATIONS_BEFORE_ADDING_CONTEXT))
          then f.contextGrowable else false) = true := by
        rw [if_pos hgatet]
        exact hcg
      have hstate : (f.embiggen).2 =
          { f with
            prefixOffset := some po2
            suffixOffset := some sufo2
            numIterations := f.numIterations + 1 } := by
        unfold embiggen
        dsimp only
        rw [hcec, hrFalse]
        rw [if_pos rfl, if_neg Bool.false_ne_true]
        rw [hcstep]
      refine ⟨?_, ?_, ?_, ?_⟩
      · rw [hstate]
        refine WF_intro_contextOnly _ hm hA hB hC hsoN heoN ?_
        right
        exact ⟨po2, sufo2, rfl, rfl, Nat.le_trans c1 hpole, c3⟩
      · intro _
        rw [hstate, hmf]
        unfold measureFn
        dsimp only
        rw [hm, hpo, hsufo]
        simp only [Option.getD_some]
        omega
      · intro a ha
        rw [hsoN] at ha
        exact absurd ha (by simp)
      · intro b hb
        rw [heoN] at hb
        exact absurd hb (by simp)
  · have hcgFalse : f.contextGrowable = false := Bool.eq_false_iff.mpr hcg
    have hbool : (f.embiggen).1 = false :=
      (embiggen_false_iff f).mpr ⟨hrFalse, hcgFalse⟩
    have hstate : (f.embiggen).2 =
        { f with numIterations := f.numIterations + 1 } := by
      unfold embiggen
      dsimp only
      rw [hrFalse, hcgFalse]
      simp
    refine ⟨?_, ?_, ?_, ?_⟩
    · rw [hstate]
      exact hwf
    · intro h
      rw [hbool] at h
      exact absurd h Bool.false_ne_true
    · intro a ha
      rw [hstate]
      exact ⟨a, ha, Nat.le_refl _⟩
    · intro b hb
      rw [hstate]
      exact ⟨b, hb, Nat.le_refl _⟩

/-- One embiggen call on any well-formed factory. -/
theorem embiggen_step (f : FragmentFactory) (hwf : f.WF = true) :
    (f.embiggen).2.WF = true ∧
      ((f.embiggen).1 = true → measureFn (f.embiggen).2 < measureFn f) ∧
      (∀ a, f.startOffset = some a →
        ∃ a2, (f.embiggen).2.startOffset = some a2 ∧ a ≤ a2) ∧
      (∀ b, f.endOffset = some b →
        ∃ b2, (f.embiggen).2.endOffset = some b2 ∧ b2 ≤ b) := by
  cases hm : f.mode with
  | allParts => exact embiggen_step_allParts f hm hwf
  | sharedStartAndEnd => exact embiggen_step_shared f hm hwf
  | contextOnly => exact embiggen_step_contextOnly f hm hwf

end FragmentFactory


/-- A take of a longer take extends the shorter one. -/
theorem take_prefix_mono {l : List Char} {m n : Nat} (h : m ≤ n) :
    l.take m <+: l.take n := by
  have heq : (l.take n).take m = l.take m := by
    rw [List.take_take, Nat.min_eq_left h]
  rw [← heq]
  exact List.take_prefix m (l.take n)

/-- A drop from further right is a suffix of a drop from further left. -/
theorem drop_suffix_mono {l : List Char} {m n : Nat} (h : m ≤ n) :
    l.drop n <:+ l.drop m := by
  have heq : (l.drop m).drop (n - m) = l.drop n := by
    rw [List.drop_drop]
    congr 1
    omega
  rw [← heq]
  exact List.drop_suffix _ _

namespace FragmentFactory

/-- Unrolling the state iteration by one call. -/
theorem embiggenState_shift (f : FragmentFactory) (n : Nat) :
    embiggenState f (n + 1) = embiggenState (f.embiggen).2 n := by
  induction n with
  | zero => rfl
  | succ n ih =>
    show (embiggenState f (n + 1)).embiggen.2 = _
    rw [ih]
    rfl

/-- Repeated embiggen calls reach a false return within the measure. -/
theorem embiggen_halts : ∀ (bound : Nat) (f : FragmentFactory),
    f.WF = true → measureFn f ≤ bound → ∃ n, f.embiggenResult n = false := by
  intro bound
  induction bound with
  | zero =>
    intro f hwf hb
    cases hres : (f.embiggen).1 with
    | false => exact ⟨0, hres⟩
    | true =>
      obtain ⟨_, hmeas, _, _⟩ := embiggen_step f hwf
      have := hmeas hres
      omega
  | succ bound ih =>
    intro f hwf hb
    cases hres : (f.embiggen).1 with
    | false => exact ⟨0, hres⟩
    | true =>
      obtain ⟨hwf2, hmeas, _, _⟩ := embiggen_step f hwf
      obtain ⟨m, hm⟩ := ih (f.embiggen).2 hwf2 (by have := hmeas hres; omega)
      refine ⟨m + 1, ?_⟩
      show (embiggenState f (m + 1)).embiggen.1 = false
      rw [embiggenState_shift]
      exact hm

/-- A false embiggen return persists for all later calls. -/
theorem embiggenResult_false_mono (f : FragmentFactory) (n : Nat)
    (h : f.embiggenResult n = false) :
    ∀ k, n ≤ k → f.embiggenResult k = false := by
  intro k hk
  induction k, hk using Nat.le_induction with
  | base => exact h
  | succ k _ ih =>
    show ((embiggenState f k).embiggen.2).embiggen.1 = false
    exact embiggen_false_absorbing _ ih

end FragmentFactory

/-- Claim C3: for every well-formed fragment factory, repeated embiggen
calls return false after finitely many calls; moreover a call returns
false exactly when neither the range-text candidates nor the prefix/suffix
context can grow further. -/
theorem FragmentFactory_embiggen_termination (f : FragmentFactory)
    (hwf : f.WF = true) :
    (∃ n, ∀ k, n ≤ k → f.embiggenResult k = false) ∧
      ((f.embiggen).1 = false ↔
        (f.rangeGrowable = false ∧ f.contextGrowable = false)) := by
  constructor
  · obtain ⟨n, hn⟩ :=
      FragmentFactory.embiggen_halts (FragmentFactory.measureFn f) f hwf
        (Nat.le_refl _)
    exact ⟨n, FragmentFactory.embiggenResult_false_mono f n hn⟩
  · exact FragmentFactory.embiggen_false_iff f

/-- Claim C3 witness: a concrete shared-mode factory with context search
spaces is well-formed, so its embiggen loop terminates. -/
theorem FragmentFactory_embiggen_termination_witness :
    (FragmentFactory.WF c3factory = true) ∧
      ((∃ n, ∀ k, n ≤ k → c3factory.embiggenResult k = false) ∧
        ((c3factory.embiggen).1 = false ↔
          (c3factory.rangeGrowable = false ∧
            c3factory.contextGrowable = false))) :=
  ⟨by decide, FragmentFactory_embiggen_termination c3factory (by decide)⟩

/-- Claim C7: a single embiggen call on a well-formed factory never shrinks
the candidates: startOffset does not decrease, endOffset does not
increase, so the textStart candidate substring extends the previous one
and the textEnd candidate substring extends the previous one. -/
theorem FragmentFactory_embiggen_monotone (f : FragmentFactory)
    (so eo : Nat) (hwf : f.WF = true) (hso : f.startOffset = some so)
    (heo : f.endOffset = some eo) :
    ∃ so2 eo2, (f.embiggen).2.startOffset = some so2 ∧
      (f.embiggen).2.endOffset = some eo2 ∧ so ≤ so2 ∧ eo2 ≤ eo ∧
      (jsSubstring f.getStartSearchSpace 0 (some so)).data <+:
        (jsSubstring f.getStartSearchSpace 0 (some so2)).data ∧
      (jsSubstring f.getEndSearchSpace eo none).data <:+
        (jsSubstring f.getEndSearchSpace eo2 none).data := by
  obtain ⟨_, _, hmono1, hmono2⟩ := FragmentFactory.embiggen_step f hwf
  obtain ⟨so2, hso2, hle1⟩ := hmono1 so hso
  obtain ⟨eo2, heo2, hle2⟩ := hmono2 eo heo
  refine ⟨so2, eo2, hso2, heo2, hle1, hle2, ?_, ?_⟩
  · rw [jsSubstring_zero_data, jsSubstring_zero_data]
    exact take_prefix_mono hle1
  · rw [jsSubstring_none_data, jsSubstring_none_data]
    exact drop_suffix_mono hle2

/-- Claim C7 witness: monotone growth on a concrete shared-mode factory. -/
theorem FragmentFactory_embiggen_monotone_witness :
    (FragmentFactory.WF c3factory = true) ∧
      c3factory.startOffset = some 0 ∧
      c3factory.endOffset = some 17 ∧
      (∃ so2 eo2, (c3factory.embiggen).2.startOffset = some so2 ∧
        (c3factory.embiggen).2.endOffset = some eo2 ∧ 0 ≤ so2 ∧ eo2 ≤ 17 ∧
        (jsSubstring c3factory.getStartSearchSpace 0 (some 0)).data <+:
          (jsSubstring c3factory.getStartSearchSpace 0 (some so2)).data ∧
        (jsSubstring c3factory.getEndSearchSpace 17 none).data <:+
          (jsSubstring c3factory.getEndSearchSpace eo2 none).data) :=
  ⟨by decide, by decide, by decide,
    FragmentFactory_embiggen_monotone c3factory 0 17 (by decide) (by decide)
      (by decide)⟩


/-- Claim C5 (code bug): the resolver accepts matches that are not
word-bounded.  On data abcdef with query cde the acceptance loop of
findRangeFromNodeList accepts the match at index 2, because isWordBounded
returns true unconditionally, although the character before the match is
the letter b, violating the word-bounding rule the function is documented
to implement. -/
theorem resolver_accepts_unbounded_match :
    findRangeMatchIndex 10 "abcdef" "cde" 0 = some 2 ∧
      isWordBounded "abcdef" 2 3 = true ∧
      isWordBoundedSpec "abcdef" 2 3 = false := by
  decide

/-- C6: the spec says a fragment that resolves to zero ranges yields an
empty list without throwing, and names {prefix: "prefix3", textStart:
"target"} as an example.  In the code, any resolution that reaches the
context-handling path falls through to a read of the undeclared variable
mark, so this very example throws a ReferenceError instead of returning
[]: the prefix and the target are each found in exactly one block, the
early returns do not fire, and the fall-through raises. -/
theorem resolver_throws_on_context_fragment :
    findText c6doc c6frag.prefixText = [[0, 0]] ∧
      findText c6doc c6frag.textStart = [[0, 1]] ∧
      processTextFragmentDirective c6doc c6frag = .error .referenceError := by
  decide

/-- C9: expandRangeEndToWordBound does not only grow the range.  In c9doc
the forward override map sends the surviving SPAN ancestor of the origin
back to the text node "has space", which precedes the origin in document
order, so the word-bound branch setEnd moves the end boundary backward
(comparePoints returns lt against the input end) and the output no longer
contains the input range; the result differs from the defensive
range.collapse() fallback, so the shrink happens on the claimed
only-growing path. -/
theorem expandRangeEnd_moves_end_backward :
    expandRangeEndToWordBound 30 c9doc c9range =
      ⟨[0, 0, 0, 0, 0], 3, [0, 0, 0, 0, 0], 3⟩ ∧
      comparePoints
        (expandRangeEndToWordBound 30 c9doc c9range).ePath
        (expandRangeEndToWordBound 30 c9doc c9range).eOff
        c9range.ePath c9range.eOff = .lt ∧
      expandRangeEndToWordBound 30 c9doc c9range ≠ c9range.collapseToEnd := by
  decide

/-- C10: if any one of the four fragment parts (prefix, textStart,
textEnd, suffix) is found by findText in more than one block element,
processTextFragmentDirective returns the empty array immediately, with no
highlighting and no error, regardless of the other parts. -/
theorem processTextFragmentDirective_ambiguous_part_early_return
    (doc : DNode) (tf : TextFragment)
    (h : 1 < (findText doc tf.prefixText).length ∨
      1 < (findText doc tf.textStart).length ∨
      1 < (findText doc tf.textEnd).length ∨
      1 < (findText doc tf.suffixText).length) :
    processTextFragmentDirective doc tf = .ok [] := by
  unfold processTextFragmentDirective
  rcases h with h | h | h | h <;> simp [h]

/-- C10 witness: in c10doc the textStart "x" of c10frag occurs in both
paragraphs, so resolution returns the empty list even though the prefix
"alpha" occurs only in the first paragraph. -/
theorem processTextFragmentDirective_ambiguous_part_witness :
    1 < (findText c10doc c10frag.textStart).length ∧
      processTextFragmentDirective c10doc c10frag = .ok [] :=
  ⟨by decide,
    processTextFragmentDirective_ambiguous_part_early_return c10doc c10frag
      (Or.inr (Or.inl (by decide)))⟩


/-! ### Boundary-point order lemmas for the markRange analysis -/

lemma comparePoints_nil_nil (o1 o2 : Nat) :
    comparePoints [] o1 [] o2 = compare o1 o2 := rfl

lemma comparePoints_nil_cons (o1 j : Nat) (t : Path) (o2 : Nat) :
    comparePoints [] o1 (j :: t) o2 = if j < o1 then .gt else .lt := rfl

lemma comparePoints_cons_nil (j : Nat) (t : Path) (o1 o2 : Nat) :
    comparePoints (j :: t) o1 [] o2 = if j < o2 then .lt else .gt := rfl

lemma comparePoints_cons_cons (a : Nat) (p1 : Path) (o1 : Nat) (b : Nat)
    (p2 : Path) (o2 : Nat) :
    comparePoints (a :: p1) o1 (b :: p2) o2 =
      if a = b then comparePoints p1 o1 p2 o2 else compare a b := rfl

/-- The point just after child i of a node is after any point inside that
child. -/
lemma comparePoints_parent_after (parent : Path) (i o : Nat) :
    comparePoints parent (i + 1) (parent ++ [i]) o = .gt := by
  induction parent with
  | nil => rw [List.nil_append, comparePoints_nil_cons, if_pos (by omega)]
  | cons a t ih =>
    rw [List.cons_append, comparePoints_cons_cons, if_pos rfl]
    exact ih

/-- The point just before child i of a node is before any point inside
that child. -/
lemma comparePoints_parent_before (parent : Path) (i o : Nat) :
    comparePoints parent i (parent ++ [i]) o = .lt := by
  induction parent with
  | nil => rw [List.nil_append, comparePoints_nil_cons, if_neg (by omega)]
  | cons a t ih =>
    rw [List.cons_append, comparePoints_cons_cons, if_pos rfl]
    exact ih

/-- A point in a node q outside the subtree of parent ++ [i] that is not
before a point inside that subtree is after the point (parent, i + 1). -/
lemma comparePoints_after_subtree (parent : Path) (q : Path) (c i sOff : Nat)
    (hpre : ¬ List.isPrefixOf (parent ++ [i]) q = true)
    (h : ¬ comparePoints q c (parent ++ [i]) sOff = .lt) :
    comparePoints q (c + 1) parent (i + 1) = .gt := by
  induction parent generalizing q with
  | nil =>
    cases q with
    | nil =>
      rw [List.nil_append, comparePoints_nil_cons] at h
      have hic : i < c := by
        by_cases hic : i < c
        · exact hic
        · rw [if_neg hic] at h; exact absurd rfl h
      rw [comparePoints_nil_nil, Nat.compare_eq_gt]
      omega
    | cons b q2 =>
      rw [List.nil_append] at h hpre
      by_cases hbi : b = i
      · subst hbi
        exact absurd (by simp [List.isPrefixOf]) hpre
      · rw [comparePoints_cons_cons, if_neg hbi] at h
        have hib : i < b := by
          rcases Nat.lt_trichotomy b i with hlt | heq | hgt
          · exact absurd (Nat.compare_eq_lt.mpr hlt) h
          · exact absurd heq hbi
          · exact hgt
        rw [comparePoints_cons_nil, if_neg (by omega)]
  | cons a t ih =>
    cases q with
    | nil =>
      rw [List.cons_append, comparePoints_nil_cons] at h
      have hac : a < c := by
        by_cases hac : a < c
        · exact hac
        · rw [if_neg hac] at h; exact absurd rfl h
      rw [comparePoints_nil_cons, if_pos (by omega)]
    | cons b q2 =>
      rw [List.cons_append] at h hpre
      by_cases hba : b = a
      · subst hba
        rw [comparePoints_cons_cons, if_pos rfl] at h
        rw [comparePoints_cons_cons, if_pos rfl]
        refine ih q2 ?_ h
        intro hp
        exact hpre (by simp [List.isPrefixOf, hp])
      · rw [comparePoints_cons_cons, if_neg hba] at h
        rw [comparePoints_cons_cons, if_neg hba]
        rcases Nat.lt_trichotomy b a with hlt | heq | hgt
        · exact absurd (Nat.compare_eq_lt.mpr hlt) h
        · exact absurd heq hba
        · exact Nat.compare_eq_gt.mpr hgt

/-- A point in a node q outside the subtree of parent ++ [j] that is not
after a point inside that subtree is before the point (parent, j). -/
lemma comparePoints_before_subtree (parent : Path) (q : Path) (c j eOff : Nat)
    (hpre : ¬ List.isPrefixOf (parent ++ [j]) q = true)
    (h : ¬ comparePoints q (c + 1) (parent ++ [j]) eOff = .gt) :
    comparePoints q c parent j = .lt := by
  induction parent generalizing q with
  | nil =>
    cases q with
    | nil =>
      rw [List.nil_append, comparePoints_nil_cons] at h
      have hjc : ¬ j < c + 1 := by
        intro hj
        rw [if_pos hj] at h
        exact h rfl
      rw [comparePoints_nil_nil, Nat.compare_eq_lt]
      omega
    | cons b q2 =>
      rw [List.nil_append] at h hpre
      by_cases hbj : b = j
      · subst hbj
        exact absurd (by simp [List.isPrefixOf]) hpre
      · rw [comparePoints_cons_cons, if_neg hbj] at h
        have hbj2 : b < j := by
          rcases Nat.lt_trichotomy b j with hlt | heq | hgt
          · exact hlt
          · exact absurd heq hbj
          · exact absurd (Nat.compare_eq_gt.mpr hgt) h
        rw [comparePoints_cons_nil, if_pos hbj2]
  | cons a t ih =>
    cases q with
    | nil =>
      rw [List.cons_append, comparePoints_nil_cons] at h
      have hac : ¬ a < c + 1 := by
        intro ha
        rw [if_pos ha] at h
        exact h rfl
      rw [comparePoints_nil_cons, if_neg (by omega)]
    | cons b q2 =>
      rw [List.cons_append] at h hpre
      by_cases hba : b = a
      · subst hba
        rw [comparePoints_cons_cons, if_pos rfl] at h
        rw [comparePoints_cons_cons, if_pos rfl]
        refine ih q2 ?_ h
        intro hp
        exact hpre (by simp [List.isPrefixOf, hp])
      · rw [comparePoints_cons_cons, if_neg hba] at h
        rw [comparePoints_cons_cons, if_neg hba]
        rcases Nat.lt_trichotomy b a with hlt | heq | hgt
        · exact Nat.compare_eq_lt.mpr hlt
        · exact absurd heq hba
        · exact absurd (Nat.compare_eq_gt.mpr hgt) h

/-- When neither container path is a prefix of the other, the boundary
comparison does not depend on the offsets. -/
lemma comparePoints_divergent_const (q pr : Path) (a a2 b b2 : Nat)
    (h1 : ¬ List.isPrefixOf q pr = true) (h2 : ¬ List.isPrefixOf pr q = true) :
    comparePoints q a pr b = comparePoints q a2 pr b2 := by
  induction q generalizing pr with
  | nil => exact absurd (by simp [List.isPrefixOf]) h1
  | cons x q2 ih =>
    cases pr with
    | nil => exact absurd (by simp [List.isPrefixOf]) h2
    | cons y t =>
      by_cases hxy : x = y
      · subst hxy
        rw [comparePoints_cons_cons, comparePoints_cons_cons, if_pos rfl,
          if_pos rfl]
        refine ih t ?_ ?_
        · intro hp
          exact h1 (by simp [List.isPrefixOf, hp])
        · intro hp
          exact h2 (by simp [List.isPrefixOf, hp])
      · rw [comparePoints_cons_cons, comparePoints_cons_cons, if_neg hxy,
          if_neg hxy]

/-- When neither container path is a prefix of the other, the boundary
comparison is never eq. -/
lemma comparePoints_divergent_ne_eq (q pr : Path) (a b : Nat)
    (h1 : ¬ List.isPrefixOf q pr = true) (h2 : ¬ List.isPrefixOf pr q = true) :
    ¬ comparePoints q a pr b = .eq := by
  induction q generalizing pr with
  | nil => exact absurd (by simp [List.isPrefixOf]) h1
  | cons x q2 ih =>
    cases pr with
    | nil => exact absurd (by simp [List.isPrefixOf]) h2
    | cons y t =>
      by_cases hxy : x = y
      · subst hxy
        rw [comparePoints_cons_cons, if_pos rfl]
        refine ih t ?_ ?_
        · intro hp
          exact h1 (by simp [List.isPrefixOf, hp])
        · intro hp
          exact h2 (by simp [List.isPrefixOf, hp])
      · rw [comparePoints_cons_cons, if_neg hxy]
        intro hc
        exact hxy (Nat.compare_eq_eq.mp hc)


/-- Path lookup distributes over path concatenation. -/
lemma nodeAt_append (doc : DNode) (p rest : Path) :
    nodeAt doc (p ++ rest) = (nodeAt doc p).bind (fun n => nodeAt n rest) := by
  induction p generalizing doc with
  | nil => simp [nodeAt]
  | cons i t ih =>
    cases doc with
    | text s => simp [nodeAt]
    | elem tag kids =>
      rw [List.cons_append]
      cases h : kids[i]? with
      | none => simp [nodeAt, h]
      | some k => simp [nodeAt, h, ih]

/-- A text node has no descendants: a text-node path that is a prefix of
another real node path equals it. -/
lemma text_prefix_eq (doc : DNode) (p q : Path) (s : String)
    (hp : isTextNode doc p = true) (hq : textDataOf doc q = some s)
    (hpre : List.isPrefixOf p q = true) : p = q := by
  obtain ⟨rest, rfl⟩ : ∃ rest, q = p ++ rest := by
    obtain ⟨rest, hr⟩ := List.isPrefixOf_iff_prefix.mp hpre
    exact ⟨rest, hr.symm⟩
  cases rest with
  | nil => simp
  | cons r rs =>
    exfalso
    unfold isTextNode at hp
    unfold textDataOf at hq
    rw [nodeAt_append] at hq
    cases hnode : nodeAt doc p with
    | none => rw [hnode] at hp; simp at hp
    | some n =>
      cases n with
      | text s0 =>
        rw [hnode] at hq
        simp [nodeAt] at hq
      | elem tag kids => rw [hnode] at hp; simp at hp

/-- The segment a range covers in a text node carries that node's path. -/
lemma segmentOfText_fst (r : DRange) (q : Path) (s : String)
    (seg : Path × Nat × Nat) (h : segmentOfText r q s = some seg) :
    seg.1 = q := by
  simp only [segmentOfText] at h
  split at h
  · cases h; rfl
  · cases h

/-- A covered segment exhibits a character position inside the range: not
before the start and, one place further, not after the end. -/
lemma segmentOfText_some_exists (r : DRange) (q : Path) (s : String)
    (seg : Path × Nat × Nat) (h : segmentOfText r q s = some seg) :
    ∃ i, i < s.data.length ∧ ¬ comparePoints q i r.sPath r.sOff = .lt ∧
      ¬ comparePoints q (i + 1) r.ePath r.eOff = .gt := by
  by_contra hno
  push_neg at hno
  simp only [segmentOfText] at h
  rw [if_neg] at h
  · cases h
  · intro hlo
    have hsub : ((List.range s.data.length).filter
        (fun i => !decide (comparePoints q (i + 1) r.ePath r.eOff = .gt))).length ≤
        ((List.range s.data.length).filter
        (fun i => decide (comparePoints q i r.sPath r.sOff = .lt))).length := by
      rw [← List.countP_eq_length_filter, ← List.countP_eq_length_filter]
      refine List.countP_mono_left ?_
      intro i hi hgt
      rw [List.mem_range] at hi
      have h1 := hno i hi
      simp only [Bool.not_eq_true', decide_eq_false_iff_not] at hgt
      by_cases hlt : comparePoints q i r.sPath r.sOff = .lt
      · simp [hlt]
      · exact absurd (h1 hlt) (by simp [hgt])
    omega

/-- A mark whose segments all carry one path is single-node. -/
lemma markSingleNode_of_all (m : Mark) (tgt : Path)
    (h : ∀ seg ∈ m, seg.1 = tgt) : markSingleNode m = true := by
  cases m with
  | nil => rfl
  | cons seg rest =>
    show rest.all (fun s2 => s2.1 == seg.1) = true
    rw [List.all_eq_true]
    intro s2 hs2
    have h1 := h seg (List.mem_cons_self _ _)
    have h2 := h s2 (List.mem_cons_of_mem _ hs2)
    simp [h1, h2]

/-- Membership in a range's segment list comes from a real text node
covered by the range. -/
lemma segments_mem (doc : DNode) (rr : DRange) (seg : Path × Nat × Nat)
    (hmem : seg ∈ rr.segments doc) :
    ∃ q s, textDataOf doc q = some s ∧ segmentOfText rr q s = some seg := by
  unfold DRange.segments at hmem
  rw [List.mem_filterMap] at hmem
  obtain ⟨⟨q, s⟩, hqs, hseg⟩ := hmem
  refine ⟨q, s, ?_, hseg⟩
  unfold allTextNodesWithPaths at hqs
  rw [List.mem_filterMap] at hqs
  obtain ⟨p, _, hmatch⟩ := hqs
  cases hnd : nodeAt doc p with
  | none => rw [hnd] at hmatch; simp at hmatch
  | some n =>
    cases n with
    | text s0 =>
      rw [hnd] at hmatch
      simp only [Option.some.injEq, Prod.mk.injEq] at hmatch
      obtain ⟨rfl, rfl⟩ := hmatch
      unfold textDataOf
      rw [hnd]
    | elem tag kids => rw [hnd] at hmatch; simp at hmatch


/-- A path with no last element is empty. -/
lemma getLast?_none_eq_nil (l : Path) (h : l.getLast? = none) : l = [] := by
  induction l with
  | nil => rfl
  | cons a t ih =>
    cases t with
    | nil => simp at h
    | cons b u =>
      rw [List.getLast?_cons_cons] at h
      exact absurd (ih h) (List.cons_ne_nil b u)

/-- A path with last element i splits as a parent part plus [i]. -/
lemma getLast?_concat_decomp (l : Path) (i : Nat) (h : l.getLast? = some i) :
    ∃ t, l = t ++ [i] := by
  induction l with
  | nil => cases h
  | cons a t ih =>
    cases t with
    | nil =>
      simp at h
      exact ⟨[], by simp [h]⟩
    | cons b u =>
      rw [List.getLast?_cons_cons] at h
      obtain ⟨t2, ht⟩ := ih h
      exact ⟨a :: t2, by rw [List.cons_append, ← ht]⟩

/-- In a document whose root is a text node, the only text path is the
empty one. -/
lemma textData_root_text (doc : DNode) (q : Path) (s : String)
    (hroot : isTextNode doc [] = true) (hq : textDataOf doc q = some s) :
    q = [] := by
  cases q with
  | nil => rfl
  | cons a t =>
    exfalso
    unfold isTextNode at hroot
    unfold textDataOf at hq
    cases doc with
    | text s0 => simp [nodeAt] at hq
    | elem tag kids => simp [nodeAt] at hroot

/-- The single-node mark over a whole text node is single-node. -/
lemma wholeTextSegments_single (doc : DNode) (p : Path) :
    markSingleNode (wholeTextSegments doc p) = true := by
  unfold wholeTextSegments
  cases textDataOf doc p <;> rfl

/-- Every segment of the range marked in the single-text-node case lies
in the start container. -/
lemma markRange_trivial_single (doc : DNode) (r : DRange)
    (hs : isTextNode doc r.sPath = true) (hse : r.sPath = r.ePath) :
    markSingleNode (r.segments doc) = true := by
  refine markSingleNode_of_all _ r.sPath ?_
  intro seg hmem
  obtain ⟨q, s, hq, hseg⟩ := segments_mem doc r seg hmem
  rw [segmentOfText_fst r q s seg hseg]
  by_cases hpre1 : List.isPrefixOf r.sPath q = true
  · exact (text_prefix_eq doc r.sPath q s hs hq hpre1).symm
  · by_cases hpre2 : List.isPrefixOf q r.sPath = true
    · have hqt : isTextNode doc q = true := by
        unfold isTextNode
        unfold textDataOf at hq
        cases hnd : nodeAt doc q with
        | none => rw [hnd] at hq; cases hq
        | some n =>
          cases n with
          | text s0 => rfl
          | elem tag kids => rw [hnd] at hq; cases hq
      obtain ⟨s2, hsd⟩ : ∃ s2, textDataOf doc r.sPath = some s2 := by
        unfold isTextNode at hs
        cases hnd : nodeAt doc r.sPath with
        | none => rw [hnd] at hs; simp at hs
        | some n =>
          cases n with
          | text s2 => exact ⟨s2, by unfold textDataOf; rw [hnd]⟩
          | elem tag kids => rw [hnd] at hs; simp at hs
      exact text_prefix_eq doc q r.sPath s2 hqt hsd hpre2
    · exfalso
      obtain ⟨c, hlen, hlt, hgt⟩ := segmentOfText_some_exists r q s seg hseg
      rw [← hse] at hgt
      have hconst : comparePoints q (c + 1) r.sPath r.eOff =
          comparePoints q c r.sPath r.sOff :=
        comparePoints_divergent_const q r.sPath (c + 1) c r.eOff r.sOff
          hpre2 hpre1
      cases hcv : comparePoints q c r.sPath r.sOff with
      | lt => exact hlt hcv
      | eq =>
        exact comparePoints_divergent_ne_eq q r.sPath c r.sOff hpre2 hpre1 hcv
      | gt => exact hgt (hconst.trans hcv)

/-- Every segment of the start-node subrange lies in the start
container. -/
lemma markRange_startSub_single (doc : DNode) (r : DRange)
    (hs : isTextNode doc r.sPath = true) :
    markSingleNode ((r.setEndAfterNode r.sPath).segments doc) = true := by
  refine markSingleNode_of_all _ r.sPath ?_
  intro seg hmem
  obtain ⟨q, s, hq, hseg⟩ := segments_mem doc _ seg hmem
  rw [segmentOfText_fst _ q s seg hseg]
  cases hlast : r.sPath.getLast? with
  | none =>
    have hnil := getLast?_none_eq_nil _ hlast
    rw [hnil]
    rw [hnil] at hs
    exact textData_root_text doc q s hs hq
  | some i =>
    obtain ⟨parent, hdec⟩ := getLast?_concat_decomp _ i hlast
    have hrr : r.setEndAfterNode r.sPath = ⟨r.sPath, r.sOff, parent, i + 1⟩ := by
      simp only [hdec, DRange.setEndAfterNode, List.getLast?_concat,
        DRange.setEnd, List.dropLast_concat]
      rw [if_neg (by rw [comparePoints_parent_after]; decide)]
    rw [hrr] at hseg
    by_cases hpre : List.isPrefixOf r.sPath q = true
    · exact (text_prefix_eq doc r.sPath q s hs hq hpre).symm
    · exfalso
      obtain ⟨c, hlen, hlt, hgt⟩ := segmentOfText_some_exists _ q s seg hseg
      rw [hdec] at hpre hlt
      exact hgt (comparePoints_after_subtree parent q c i r.sOff hpre hlt)

/-- Every segment of the end-node subrange lies in the end container. -/
lemma markRange_endSub_single (doc : DNode) (r : DRange)
    (he : isTextNode doc r.ePath = true) :
    markSingleNode ((r.setStartBeforeNode r.ePath).segments doc) = true := by
  refine markSingleNode_of_all _ r.ePath ?_
  intro seg hmem
  obtain ⟨q, s, hq, hseg⟩ := segments_mem doc _ seg hmem
  rw [segmentOfText_fst _ q s seg hseg]
  cases hlast : r.ePath.getLast? with
  | none =>
    have hnil := getLast?_none_eq_nil _ hlast
    rw [hnil]
    rw [hnil] at he
    exact textData_root_text doc q s he hq
  | some j =>
    obtain ⟨parent, hdec⟩ := getLast?_concat_decomp _ j hlast
    have hrr : r.setStartBeforeNode r.ePath = ⟨parent, j, r.ePath, r.eOff⟩ := by
      simp only [hdec, DRange.setStartBeforeNode, List.getLast?_concat,
        DRange.setStart, List.dropLast_concat]
      rw [if_neg (by rw [comparePoints_parent_before]; decide)]
    rw [hrr] at hseg
    by_cases hpre : List.isPrefixOf r.ePath q = true
    · exact (text_prefix_eq doc r.ePath q s he hq hpre).symm
    · exfalso
      obtain ⟨c, hlen, hlt, hgt⟩ := segmentOfText_some_exists _ q s seg hseg
      rw [hdec] at hpre hgt
      exact hlt (comparePoints_before_subtree parent q c j r.eOff hpre hgt)

/-- C8: no marker element returned by markRange spans two block parents:
every mark wraps segments of exactly one text node, either a subrange of
the start or end container or one whole text node between them, so no
single mark's content can cross a block boundary. -/
theorem markRange_no_block_crossing (doc : DNode) (r : DRange) :
    (markRange doc r).all markSingleNode = true := by
  unfold markRange
  by_cases h1 : (!(isTextNode doc r.sPath) || !(isTextNode doc r.ePath)) = true
  · rw [if_pos h1]; rfl
  · rw [if_neg h1]
    simp only [Bool.or_eq_true, Bool.not_eq_true', not_or,
      Bool.not_eq_false] at h1
    obtain ⟨hs, he⟩ := h1
    by_cases h2 : (r.sPath == r.ePath) = true
    · rw [if_pos h2]
      simp only [List.all_cons, List.all_nil, Bool.and_true]
      exact markRange_trivial_single doc r hs (eq_of_beq h2)
    · rw [if_neg h2]
      simp only [List.all_append, List.all_cons, List.all_nil, Bool.and_true,
        Bool.and_eq_true]
      refine ⟨⟨markRange_startSub_single doc r hs, ?_⟩,
        markRange_endSub_single doc r he⟩
      rw [List.all_eq_true]
      intro m hm
      rw [List.mem_map] at hm
      obtain ⟨p, _, rfl⟩ := hm
      exact wholeTextSegments_single doc p

/-! ### Success implies unique resolution -/

/-- A true isUniquelyIdentifying verdict means resolution produced
exactly one mark. -/
lemma isUniquelyIdentifying_true (doc : DNode) (f : TextFragment)
    (h : isUniquelyIdentifying doc f = .ok true) :
    (processTextFragmentDirective doc f).map List.length = .ok 1 := by
  unfold isUniquelyIdentifying at h
  cases hp : processTextFragmentDirective doc f with
  | error e => rw [hp] at h; simp [Except.map] at h
  | ok marks =>
    rw [hp] at h
    simp only [Except.map, Except.ok.injEq] at h ⊢
    exact eq_of_beq h

/-- The uniqueness guard of tryToMakeUniqueFragment: a some result both
returns the built fragment and certifies its unique resolution. -/
lemma map_guard_some (doc : DNode) (g : TextFragment) (frag : TextFragment)
    (h : (isUniquelyIdentifying doc g).map
      (fun u => if u then some g else none) = .ok (some frag)) :
    g = frag ∧ isUniquelyIdentifying doc g = .ok true := by
  cases hu : isUniquelyIdentifying doc g with
  | error e => rw [hu] at h; simp [Except.map] at h
  | ok u =>
    rw [hu] at h
    simp only [Except.map, Except.ok.injEq] at h
    cases u with
    | false => simp at h
    | true =>
      simp only [if_true] at h
      exact ⟨Option.some.inj h, rfl⟩

/-- A fragment returned by tryToMakeUniqueFragment resolves to exactly
one mark. -/
lemma tryToMakeUniqueFragment_some (doc : DNode) (f : FragmentFactory)
    (frag : TextFragment)
    (h : tryToMakeUniqueFragment doc f = .ok (some frag)) :
    (processTextFragmentDirective doc frag).map List.length = .ok 1 := by
  unfold tryToMakeUniqueFragment at h
  obtain ⟨hg, hu⟩ := map_guard_some doc _ frag h
  rw [hg] at hu
  exact isUniquelyIdentifying_true doc frag hu

/-- Every success leaving the embiggen loop carries a fragment whose
resolution has exactly one mark. -/
lemma embiggenLoop_success (doc : DNode) :
    ∀ (n : Nat) (factory : FragmentFactory) (res : GenerateResult),
      embiggenLoop doc n factory = .ok res → res.status = .success →
      ∃ f, res.fragment = some f ∧
        (processTextFragmentDirective doc f).map List.length = .ok 1 := by
  intro n
  induction n with
  | zero =>
    intro factory res h hs
    unfold embiggenLoop at h
    cases h
    exact absurd hs (by decide)
  | succ n ih =>
    intro factory res h hs
    unfold embiggenLoop at h
    rcases hemb : factory.embiggen with ⟨grew, f2⟩
    rw [hemb] at h
    cases grew with
    | false =>
      dsimp at h
      cases h
      exact absurd hs (by decide)
    | true =>
      dsimp at h
      cases htry : tryToMakeUniqueFragment doc f2 with
      | error e => rw [htry] at h; cases h
      | ok o =>
        rw [htry] at h
        cases o with
        | some frag =>
          cases h
          exact ⟨frag, rfl, tryToMakeUniqueFragment_some doc f2 frag htry⟩
        | none => exact ih f2 res h hs

/-- C2: whenever generateFragment returns SUCCESS, the returned fragment
resolves against the same document to exactly one match; the factory
never emits an ambiguous locator. -/
theorem generateFragment_success_unique (fuel : Nat) (doc : DNode)
    (sel : Option DRange) (res : GenerateResult)
    (hgen : generateFragment fuel doc sel = .ok res)
    (hs : res.status = .success) :
    ∃ f, res.fragment = some f ∧
      (processTextFragmentDirective doc f).map List.length = .ok 1 := by
  cases sel with
  | none =>
    unfold generateFragment at hgen
    cases hgen
    exact absurd hs (by decide)
  | some r0 =>
    unfold generateFragment at hgen
    simp only [] at hgen
    by_cases hc : canUseExactMatch fuel doc
        (expandRangeEndToWordBound fuel doc
          (expandRangeStartToWordBound fuel doc r0)) = true
    · rw [if_pos hc] at hgen
      cases hu : isUniquelyIdentifying doc
          { textStart := some (normalizeString
              ((expandRangeEndToWordBound fuel doc
                (expandRangeStartToWordBound fuel doc r0)).textOf doc)) } with
      | error e => rw [hu] at hgen; simp [Except.map] at hgen
      | ok u =>
        rw [hu] at hgen
        simp only [Except.map] at hgen
        cases u with
        | true =>
          simp only [if_true] at hgen
          cases hgen
          exact ⟨_, rfl, isUniquelyIdentifying_true doc _ hu⟩
        | false =>
          simp only [Bool.false_eq_true, if_false] at hgen
          exact embiggenLoop_success doc fuel _ res hgen hs
    · rw [if_neg hc] at hgen
      exact embiggenLoop_success doc fuel _ res hgen hs

/-- C2 witness: for the whole-phrase selection in c1doc, generateFragment
succeeds and the theorem yields the unique resolution of its fragment. -/
theorem generateFragment_success_unique_witness :
    generateFragment 30 c1doc (some c2sel) =
        .ok ⟨.success, some { textStart := some "hello world" }⟩ ∧
      ∃ f, (some { textStart := some "hello world" } : Option TextFragment) =
          some f ∧
        (processTextFragmentDirective c1doc f).map List.length = .ok 1 :=
  ⟨by decide,
    generateFragment_success_unique 30 c1doc (some c2sel)
      ⟨.success, some { textStart := some "hello world" }⟩ (by decide) rfl⟩

/-! ### In exact-match mode, success returns the expanded range's text -/

/-- The range step leaves the mode unchanged. -/
lemma expandRangeStep_mode (f : FragmentFactory) :
    (FragmentFactory.expandRangeStep f).mode = f.mode := by
  unfold FragmentFactory.expandRangeStep
  obtain ⟨v2, h2⟩ := FragmentFactory.expandRangeStepEnd_shape
    (FragmentFactory.expandRangeStepStart f)
  obtain ⟨v1, h1⟩ := FragmentFactory.expandRangeStepStart_shape f
  rw [h2, h1]

/-- The range step leaves the exact text unchanged. -/
lemma expandRangeStep_exact (f : FragmentFactory) :
    (FragmentFactory.expandRangeStep f).exactTextMatch = f.exactTextMatch := by
  unfold FragmentFactory.expandRangeStep
  obtain ⟨v2, h2⟩ := FragmentFactory.expandRangeStepEnd_shape
    (FragmentFactory.expandRangeStepStart f)
  obtain ⟨v1, h1⟩ := FragmentFactory.expandRangeStepStart_shape f
  rw [h2, h1]

/-- The context step leaves the mode unchanged. -/
lemma expandContextStep_mode (f : FragmentFactory) :
    (FragmentFactory.expandContextStep f).mode = f.mode := by
  unfold FragmentFactory.expandContextStep
  obtain ⟨v2, h2⟩ := FragmentFactory.expandContextStepSuf_shape
    (FragmentFactory.expandContextStepPre f)
  obtain ⟨v1, h1⟩ := FragmentFactory.expandContextStepPre_shape f
  rw [h2, h1]

/-- The context step leaves the exact text unchanged. -/
lemma expandContextStep_exact (f : FragmentFactory) :
    (FragmentFactory.expandContextStep f).exactTextMatch = f.exactTextMatch := by
  unfold FragmentFactory.expandContextStep
  obtain ⟨v2, h2⟩ := FragmentFactory.expandContextStepSuf_shape
    (FragmentFactory.expandContextStepPre f)
  obtain ⟨v1, h1⟩ := FragmentFactory.expandContextStepPre_shape f
  rw [h2, h1]

/-- embiggen leaves the mode unchanged. -/
lemma embiggen_mode (f : FragmentFactory) :
    (FragmentFactory.embiggen f).2.mode = f.mode := by
  unfold FragmentFactory.embiggen
  dsimp only
  repeat' split
  all_goals simp [expandContextStep_mode, expandRangeStep_mode]

/-- embiggen leaves the exact text unchanged. -/
lemma embiggen_exact (f : FragmentFactory) :
    (FragmentFactory.embiggen f).2.exactTextMatch = f.exactTextMatch := by
  unfold FragmentFactory.embiggen
  dsimp only
  repeat' split
  all_goals simp [expandContextStep_exact, expandRangeStep_exact]

/-- In context-only mode, the fragment built by tryToMakeUniqueFragment
always carries the stored exact text as its textStart. -/
lemma tryToMakeUniqueFragment_contextOnly_textStart (doc : DNode)
    (f : FragmentFactory) (frag : TextFragment)
    (hmode : f.mode = .contextOnly)
    (h : tryToMakeUniqueFragment doc f = .ok (some frag)) :
    frag.textStart = some f.exactTextMatch := by
  unfold tryToMakeUniqueFragment at h
  obtain ⟨hg, _⟩ := map_guard_some doc _ frag h
  rw [← hg]
  rw [if_pos hmode]
  rcases f.prefixOffset with _ | po <;> rcases f.suffixOffset with _ | so <;>
    dsimp only <;> (repeat' split) <;> rfl

/-- In context-only mode, every success leaving the embiggen loop keeps
the stored exact text as textStart and resolves uniquely. -/
lemma embiggenLoop_success_exact (doc : DNode) :
    ∀ (n : Nat) (factory : FragmentFactory) (res : GenerateResult),
      factory.mode = .contextOnly →
      embiggenLoop doc n factory = .ok res → res.status = .success →
      ∃ f, res.fragment = some f ∧
        f.textStart = some factory.exactTextMatch ∧
        (processTextFragmentDirective doc f).map List.length = .ok 1 := by
  intro n
  induction n with
  | zero =>
    intro factory res hmode h hs
    unfold embiggenLoop at h
    cases h
    exact absurd hs (by decide)
  | succ n ih =>
    intro factory res hmode h hs
    unfold embiggenLoop at h
    rcases hemb : factory.embiggen with ⟨grew, f2⟩
    have hm2 : f2.mode = .contextOnly := by
      have := embiggen_mode factory
      rw [hemb] at this
      rw [← hmode]
      exact this
    have he2 : f2.exactTextMatch = factory.exactTextMatch := by
      have := embiggen_exact factory
      rw [hemb] at this
      exact this
    rw [hemb] at h
    cases grew with
    | false =>
      dsimp at h
      cases h
      exact absurd hs (by decide)
    | true =>
      dsimp at h
      cases htry : tryToMakeUniqueFragment doc f2 with
      | error e => rw [htry] at h; cases h
      | ok o =>
        rw [htry] at h
        cases o with
        | some frag =>
          cases h
          refine ⟨frag, rfl, ?_, tryToMakeUniqueFragment_some doc f2 frag htry⟩
          rw [← he2]
          exact tryToMakeUniqueFragment_contextOnly_textStart doc f2 frag hm2 htry
        | none =>
          rw [← he2]
          exact ih f2 res hm2 h hs

/-- In the exact-match factory configuration, loop success keeps the
exact text and resolves uniquely, with or without context search
spaces. -/
lemma embiggenLoop_wrap_success (doc : DNode) (n : Nat) (E : String)
    (po so : Option String) (res : GenerateResult)
    (h : embiggenLoop doc n
      (match po, so with
        | some p, some s =>
          (FragmentFactory.new.setExactTextMatch E).setPrefixAndSuffixSearchSpace
            p s
        | _, _ => FragmentFactory.new.setExactTextMatch E) = .ok res)
    (hs : res.status = .success) :
    ∃ f, res.fragment = some f ∧ f.textStart = some E ∧
      (processTextFragmentDirective doc f).map List.length = .ok 1 := by
  have hm : (match po, so with
      | some p, some s =>
        (FragmentFactory.new.setExactTextMatch E).setPrefixAndSuffixSearchSpace
          p s
      | _, _ => FragmentFactory.new.setExactTextMatch E).mode =
      FactoryMode.contextOnly := by
    rcases po with _ | p <;> rcases so with _ | s <;> rfl
  have hx : (match po, so with
      | some p, some s =>
        (FragmentFactory.new.setExactTextMatch E).setPrefixAndSuffixSearchSpace
          p s
      | _, _ => FragmentFactory.new.setExactTextMatch E).exactTextMatch = E := by
    rcases po with _ | p <;> rcases so with _ | s <;> rfl
  obtain ⟨f, hf, hts, hres⟩ := embiggenLoop_success_exact doc n _ res hm h hs
  refine ⟨f, hf, ?_, hres⟩
  rw [hts, hx]

/-- C1 (amended): when the expanded selection admits an exact match, any
SUCCESS fragment carries as textStart the normalized text of the
word-expanded selection, not of the original selection, and resolves to
exactly one match. -/
theorem generateFragment_exact_success_round_trip (fuel : Nat) (doc : DNode)
    (r0 : DRange) (res : GenerateResult)
    (hc : canUseExactMatch fuel doc
      (expandRangeEndToWordBound fuel doc
        (expandRangeStartToWordBound fuel doc r0)) = true)
    (hgen : generateFragment fuel doc (some r0) = .ok res)
    (hs : res.status = .success) :
    ∃ f, res.fragment = some f ∧
      f.textStart = some (normalizeString
        ((expandRangeEndToWordBound fuel doc
          (expandRangeStartToWordBound fuel doc r0)).textOf doc)) ∧
      (processTextFragmentDirective doc f).map List.length = .ok 1 := by
  unfold generateFragment at hgen
  simp only [] at hgen
  rw [if_pos hc] at hgen
  cases hu : isUniquelyIdentifying doc
      { textStart := some (normalizeString
          ((expandRangeEndToWordBound fuel doc
            (expandRangeStartToWordBound fuel doc r0)).textOf doc)) } with
  | error e => rw [hu] at hgen; simp [Except.map] at hgen
  | ok u =>
    rw [hu] at hgen
    simp only [Except.map] at hgen
    cases u with
    | true =>
      simp only [if_true] at hgen
      cases hgen
      exact ⟨_, rfl, rfl, isUniquelyIdentifying_true doc _ hu⟩
    | false =>
      simp only [Bool.false_eq_true, if_false] at hgen
      rw [if_pos hc] at hgen
      exact embiggenLoop_wrap_success doc fuel _ _ _ res hgen hs

/-- C1 witness: the partial-word selection c1sel of c1doc expands to
"hello world", the generator succeeds, and the amended theorem applies
concretely. -/
theorem generateFragment_exact_success_round_trip_witness :
    canUseExactMatch 30 c1doc
        (expandRangeEndToWordBound 30 c1doc
          (expandRangeStartToWordBound 30 c1doc c1sel)) = true ∧
      ∃ f, (some c1frag : Option TextFragment) = some f ∧
        f.textStart = some (normalizeString
          ((expandRangeEndToWordBound 30 c1doc
            (expandRangeStartToWordBound 30 c1doc c1sel)).textOf c1doc)) ∧
        (processTextFragmentDirective c1doc f).map List.length = .ok 1 :=
  ⟨by decide,
    generateFragment_exact_success_round_trip 30 c1doc c1sel
      ⟨.success, some c1frag⟩ (by decide) (by decide) rfl⟩

/-- C1 counterexample to the original claim: for the selection c1sel
("ello world"), generation succeeds and resolution yields exactly one
range, but the normalized text of that range is "hello world", the text
of the word-expanded selection, which differs from
normalize(S.toString()) = "ello world" for the original selection S. -/
theorem generateFragment_round_trip_original_fails :
    generateFragment 30 c1doc (some c1sel) = .ok ⟨.success, some c1frag⟩ ∧
      processTextFragmentDirective c1doc c1frag = .ok [c1mark] ∧
      normalizeString (markText c1doc c1mark) = "hello world" ∧
      normalizeString (DRange.textOf c1doc c1sel) = "ello world" ∧
      ¬ normalizeString (markText c1doc c1mark) =
          normalizeString (DRange.textOf c1doc c1sel) := by
  decide

end TFP
